import Mathlib

/-! cryptofetch: order-book synchronisation

A shallow embedding of the Go packages `ws`, `coinbase`, `kraken` and `main`
of the cryptofetch repository, followed by theorems about them.

Modelling conventions

* `float64` is the type `F64`: NaN, the two infinities and the finite values,
  the latter taken as exact rationals (rounding is not modelled, and the two
  zeros are identified; every comparison of the program treats them alike).
* A Go slice is a `Slice`: its backing array from the first element of the
  slice on, and its length.  The capacity is the length of the backing array.
* A call that does not return normally yields a `Fault`: `fatal` for
  `log.Fatalf`, `panic` for a run-time panic.
-/

namespace CryptoFetch

/-! ## float64 -/

/-- Values of Go's `float64`. -/
inductive F64 where
  | nan
  | negInf
  | fin (q : ℚ)
  | posInf
  deriving DecidableEq, Repr

namespace F64

/-- The constant `0`. -/
def zero : F64 := fin 0

/-- Go's `math.IsNaN`. -/
def isNaN : F64 → Bool
  | nan => true
  | _ => false

/-- Go's `a < b` on float64: false as soon as one operand is NaN. -/
def lt : F64 → F64 → Bool
  | nan, _ => false
  | _, nan => false
  | negInf, negInf => false
  | negInf, _ => true
  | fin _, negInf => false
  | fin a, fin b => decide (a < b)
  | fin _, posInf => true
  | posInf, _ => false

/-- Go's `a == b` on float64: NaN equals nothing, itself included. -/
def eq : F64 → F64 → Bool
  | nan, _ => false
  | _, nan => false
  | a, b => decide (a = b)

/-- Go's `a > b`. -/
def gt (a b : F64) : Bool := lt b a

/-- Go's `a >= b`. -/
def ge (a b : F64) : Bool := lt b a || eq a b

end F64

/-! ## Faults and slices -/

/-- The ways a Go call can fail to return. -/
inductive Fault where
  | fatal
  | panic
  deriving DecidableEq, Repr

deriving instance DecidableEq for Except

/-- A Go `[]float64`: the backing array seen from the slice's first element,
and the slice length. -/
structure Slice where
  arr : List F64
  len : Nat
  deriving DecidableEq, Repr

namespace Slice

/-- The nil slice, the zero value of `[]float64`. -/
def nil : Slice := ⟨[], 0⟩

/-- The elements of the slice, `s[0] .. s[len(s)-1]`. -/
def data (s : Slice) : List F64 := s.arr.take s.len

/-- Go's `cap(s)`. -/
def cap (s : Slice) : Nat := s.arr.length

/-- Every slice built by the program has `len(s) <= cap(s)`. -/
def WF (s : Slice) : Prop := s.len ≤ s.cap

instance (s : Slice) : Decidable s.WF := by unfold WF; infer_instance

/-- Go's `s[i]`: panics when `i` is not below the length. -/
def index (s : Slice) (i : Nat) : Except Fault F64 :=
  if i < s.len then
    match s.arr[i]? with
    | some v => .ok v
    | none => .error .panic
  else .error .panic

/-- Go's `s[i] = v`. -/
def set (s : Slice) (i : Nat) (v : F64) : Except Fault Slice :=
  if i < s.len then .ok ⟨s.arr.set i v, s.len⟩ else .error .panic

/-- Go's `s[:j]`: the upper bound may reach the capacity, not only the length. -/
def upTo (s : Slice) (j : Nat) : Except Fault Slice :=
  if j ≤ s.cap then .ok ⟨s.arr, j⟩ else .error .panic

/-- Go's `s[i:]`: the lower bound may not exceed the length. -/
def dropFront (s : Slice) (i : Nat) : Except Fault Slice :=
  if i ≤ s.len then .ok ⟨s.arr.drop i, s.len - i⟩ else .error .panic

/-- Capacity chosen by `append` when it has to allocate: the needed length
when doubling is not enough, else twice the old capacity.  This is the growth
of the Go runtime for a `[]float64` of fewer than 256 elements; the general
theorems below only use that the new array holds the result. -/
def growCap (oldCap needed : Nat) : Nat :=
  if 2 * oldCap < needed then needed else 2 * oldCap

/-- Go's `append(s, xs...)`.  `xs` are the values of the second operand, read
before anything is written (the copy is a memmove, so an operand that overlaps
`s` is copied as if from a temporary).  With room in the backing array the
elements are written in place, otherwise a new array is allocated. -/
def append (s : Slice) (xs : List F64) : Slice :=
  let n := s.len + xs.length
  if n ≤ s.cap then
    ⟨s.arr.take s.len ++ xs ++ s.arr.drop n, n⟩
  else
    ⟨s.arr.take s.len ++ xs ++ List.replicate (growCap s.cap n - n) F64.zero, n⟩

end Slice

/-! ## strconv.ParseFloat -/

/-- Value of a string of decimal digits, `none` when another character occurs. -/
def digitsVal : List Char → Nat → Option Nat
  | [], acc => some acc
  | c :: cs, acc => if c.isDigit then digitsVal cs (acc * 10 + (c.toNat - 48)) else none

/-- Mantissa `digits[.digits]` with at least one digit. -/
def parseMantissa (cs : List Char) : Option ℚ :=
  let ip := cs.takeWhile (fun c => c != '.')
  match cs.dropWhile (fun c => c != '.') with
  | [] =>
    if ip.isEmpty then none
    else match digitsVal ip 0 with
      | some n => some (mkRat n 1)
      | none => none
  | _ :: fp =>
    if ip.isEmpty && fp.isEmpty then none
    else match digitsVal ip 0, digitsVal fp 0 with
      | some n, some m => some (mkRat (n * 10 ^ fp.length + m : Nat) (10 ^ fp.length))
      | _, _ => none

/-- Decimal exponent `[+-]digits` with at least one digit; the result is the
factor `10^e`. -/
def parseExponent (cs : List Char) : Option ℚ :=
  match cs with
  | '-' :: ds =>
    if ds.isEmpty then none
    else match digitsVal ds 0 with
      | some e => some (mkRat 1 (10 ^ e))
      | none => none
  | '+' :: ds =>
    if ds.isEmpty then none
    else match digitsVal ds 0 with
      | some e => some (mkRat (10 ^ e : Nat) 1)
      | none => none
  | ds =>
    if ds.isEmpty then none
    else match digitsVal ds 0 with
      | some e => some (mkRat (10 ^ e : Nat) 1)
      | none => none

/-- Unsigned decimal number `digits[.digits][e[+-]digits]`. -/
def parseUnsigned (cs : List Char) : Option ℚ :=
  let isE := fun (c : Char) => c == 'e' || c == 'E'
  match cs.dropWhile (fun c => !isE c) with
  | [] => parseMantissa cs
  | _ :: ex =>
    match parseMantissa (cs.takeWhile (fun c => !isE c)), parseExponent ex with
    | some m, some f => some (m * f)
    | _, _ => none

/-- The number `2^1024 - 2^970`, halfway between the largest finite float64 and `2^1024`. -/
def overflowNat : Nat :=
  179769313486231580793728971405303415079934132710037826936173778980444968292764750946649017977587207096330286416692887910946555547851940402630657488671505820681908902000708383676273854845817711531764475730270069855571366959622842914819860834936475292719074168444365510704342711559699508093042880177904174497792

/-- Magnitudes from here on round to an infinity: `ParseFloat` reports a range error. -/
def overflowBound : ℚ := mkRat overflowNat 1

/-- A finite result, or the range error. -/
def finiteOrRange (q : ℚ) : Except Fault F64 :=
  if decide (q < overflowBound) && decide (-overflowBound < q) then .ok (.fin q)
  else .error .fatal

/-- The part of `ParseFloat` after an optional sign: `inf`, `infinity` in any
letter case, or a decimal number.  `neg` tells whether the sign was `-`. -/
def parseSigned (neg : Bool) (cs : List Char) : Except Fault F64 :=
  let low := cs.map Char.toLower
  if low = "inf".toList || low = "infinity".toList then
    .ok (if neg then .negInf else .posInf)
  else match parseUnsigned cs with
    | some q => finiteOrRange (if neg then -q else q)
    | none => .error .fatal

/-- Go's `strconv.ParseFloat(s, 64)` followed by the callers' `log.Fatalf` on
error.  Covered: decimal notation with optional sign, fraction and exponent,
and the special values `nan`, `inf`, `infinity`; hexadecimal notation is
outside the model.  A finite value is the exact rational the string denotes. -/
def ParseFloat (s : String) : Except Fault F64 :=
  if s.toList.map Char.toLower = "nan".toList then .ok .nan
  else match s.toList with
    | '-' :: cs => parseSigned true cs
    | '+' :: cs => parseSigned false cs
    | cs => parseSigned false cs

/-! ## package ws -/

/-- Loop of Go's `sort.Search`: `for i < j { h := (i+j)/2; if !f(h) { i = h+1 } else { j = h } }`.
The first argument bounds the number of iterations. -/
def searchLoop (f : Nat → Bool) : Nat → Nat → Nat → Nat
  | 0, i, _ => i
  | fuel + 1, i, j =>
    if i < j then
      let h := (i + j) / 2
      if !f h then searchLoop f fuel (h + 1) j else searchLoop f fuel i h
    else i

/-- Go's `sort.Search(n, f)`; `n` iterations always suffice. -/
def Search (n : Nat) (f : Nat → Bool) : Nat := searchLoop f n 0 n

/-- Go's `sort.SearchFloat64s(a, x)`: `Search(len(a), func(i) { return a[i] >= x })`. -/
def SearchFloat64s (a : List F64) (x : F64) : Nat :=
  Search a.length (fun i => F64.ge (a.getD i F64.nan) x)

/-- The two slices of one side of the book after `UpdateOb`. -/
abbrev Side := Slice × Slice

/-- Go's `ws.UpdateOb(price, size, orderPrices, orderSizes)`; the result is
the new value of `*orderPrices` and `*orderSizes`. -/
def UpdateOb (price size : String) (orderPrices orderSizes : Slice) : Except Fault Side := do
  let p ← ParseFloat price
  let s ← ParseFloat size
  let idx := SearchFloat64s orderPrices.data p
  let found ←
    if idx < orderPrices.len then do
      let v ← orderPrices.index idx
      pure (F64.eq v p)
    else pure false
  if found then
    -- the price level exists
    if F64.eq s F64.zero then
      -- remove the order price level
      let ph ← orderPrices.upTo idx
      let pt ← orderPrices.dropFront (idx + 1)
      let prices := ph.append pt.data
      let sh ← orderSizes.upTo idx
      let st ← orderSizes.dropFront (idx + 1)
      let sizes := sh.append st.data
      pure (prices, sizes)
    else do
      -- replace this price level size
      let sizes ← orderSizes.set idx s
      pure (orderPrices, sizes)
  else do
    -- the price level does not exist, append it
    let ph ← orderPrices.upTo (idx + 1)
    let pt ← orderPrices.dropFront idx
    let prices ← (ph.append pt.data).set idx p
    let sh ← orderSizes.upTo (idx + 1)
    let st ← orderSizes.dropFront idx
    let sizes ← (sh.append st.data).set idx s
    pure (prices, sizes)

/-- A slice with exactly the given elements and no spare capacity. -/
def Slice.ofList (l : List F64) : Slice := ⟨l, l.length⟩

/-- The struct `ws.OrderBook`. -/
structure OrderBook where
  BidPrices : Slice
  BidSizes : Slice
  AskPrices : Slice
  AskSizes : Slice
  deriving DecidableEq, Repr

/-- The zero value `var ob ws.OrderBook`: four nil slices. -/
def OrderBook.empty : OrderBook := ⟨Slice.nil, Slice.nil, Slice.nil, Slice.nil⟩

/-- A finite sequence of `UpdateOb` calls on one side, each given as
`(price, size)`; it stops at the first call that does not return. -/
def UpdateObSeq : List (String × String) → Side → Except Fault Side
  | [], side => pure side
  | u :: us, side => do
    let side ← UpdateOb u.1 u.2 side.1 side.2
    UpdateObSeq us side

/-! ## gonum floats -/

namespace floats

/-- Loop of gonum's `floats.MaxIdx`: `i` is the index of the next element,
`max` and `ind` the running maximum and its index. -/
def maxIdxLoop : List F64 → Nat → F64 → Nat → Nat
  | [], _, _, ind => ind
  | v :: rest, i, max, ind =>
    if F64.isNaN v then maxIdxLoop rest (i + 1) max ind
    else if F64.gt v max || F64.isNaN max then maxIdxLoop rest (i + 1) v i
    else maxIdxLoop rest (i + 1) max ind

/-- The function `floats.MaxIdx` of gonum: index of the first maximum, NaN
skipped; panics on a slice of length zero. -/
def MaxIdx (s : List F64) : Except Fault Nat :=
  if s.length = 0 then .error .panic else .ok (maxIdxLoop s 0 F64.nan 0)

/-- Loop of gonum's `floats.MinIdx`. -/
def minIdxLoop : List F64 → Nat → F64 → Nat → Nat
  | [], _, _, ind => ind
  | v :: rest, i, min, ind =>
    if F64.isNaN v then minIdxLoop rest (i + 1) min ind
    else if F64.lt v min || F64.isNaN min then minIdxLoop rest (i + 1) v i
    else minIdxLoop rest (i + 1) min ind

/-- The function `floats.MinIdx` of gonum: index of the first minimum, NaN
skipped; panics on a slice of length zero. -/
def MinIdx (s : List F64) : Except Fault Nat :=
  if s.length = 0 then .error .panic else .ok (minIdxLoop s 0 F64.nan 0)

end floats

/-- The value sent on the `bestOrders` channel, a `[2][2]float64`:
`((bestBidPrice, bestBidSize), (bestAskPrice, bestAskSize))`. -/
abbrev Quote := (F64 × F64) × (F64 × F64)

/-- The body of the `if` that both feed loops run after handling a message:
locate the best bid and the best ask and build the value to send. -/
def bestOrdersOf (ob : OrderBook) : Except Fault Quote := do
  let bestBidIdx ← floats.MaxIdx ob.BidPrices.data
  let bestAskIdx ← floats.MinIdx ob.AskPrices.data
  let bidPrice ← ob.BidPrices.index bestBidIdx
  let bidSize ← ob.BidSizes.index bestBidIdx
  let askPrice ← ob.AskPrices.index bestAskIdx
  let askSize ← ob.AskSizes.index bestAskIdx
  pure ((bidPrice, bidSize), (askPrice, askSize))

/-! ## package coinbase -/

namespace coinbase

/-- The struct `obMsg`; the field `Type` is called `Typ` here, and `Time`,
which only feeds a log line, is left out. -/
structure obMsg where
  Typ : String
  ProductId : String
  Bids : List (String × String)
  Asks : List (String × String)
  Changes : List (String × String × String)

/-- First loop of `HandleObSnapshotMsg`, `for i := len(msg.Bids) - 1; i > 0; i--`,
entered with the current value of `i`. -/
def snapshotBids (bids : List (String × String)) : Nat → OrderBook → Except Fault OrderBook
  | 0, ob => pure ob
  | i + 1, ob => do
    let bid ← match bids[i + 1]? with
      | some b => pure b
      | none => throw Fault.panic
    let p ← ParseFloat bid.1
    let s ← ParseFloat bid.2
    snapshotBids bids i
      { ob with BidPrices := ob.BidPrices.append [p], BidSizes := ob.BidSizes.append [s] }

/-- Second loop of `HandleObSnapshotMsg`, `for _, ask := range msg.Asks`. -/
def snapshotAsks : List (String × String) → OrderBook → Except Fault OrderBook
  | [], ob => pure ob
  | ask :: rest, ob => do
    let p ← ParseFloat ask.1
    let s ← ParseFloat ask.2
    snapshotAsks rest
      { ob with AskPrices := ob.AskPrices.append [p], AskSizes := ob.AskSizes.append [s] }

/-- Go's `HandleObSnapshotMsg(msg, ob)`.  `len(msg.Bids) - 1` is `-1` for an
empty list, where the loop does not run; the truncated subtraction gives `0`
with the same effect.  The integrity check at the end only prints. -/
def HandleObSnapshotMsg (msg : obMsg) (ob : OrderBook) : Except Fault OrderBook := do
  let ob ← snapshotBids msg.Bids (msg.Bids.length - 1) ob
  snapshotAsks msg.Asks ob

/-- Go's `HandleL2UpdateMsg(msg, ob)`, on the list of changes still to apply. -/
def l2Changes : List (String × String × String) → OrderBook → Except Fault OrderBook
  | [], ob => pure ob
  | change :: rest, ob => do
    let ob ←
      if change.1 = "buy" then do
        let r ← UpdateOb change.2.1 change.2.2 ob.BidPrices ob.BidSizes
        pure { ob with BidPrices := r.1, BidSizes := r.2 }
      else if change.1 = "sell" then do
        let r ← UpdateOb change.2.1 change.2.2 ob.AskPrices ob.AskSizes
        pure { ob with AskPrices := r.1, AskSizes := r.2 }
      else pure ob
    l2Changes rest ob

/-- Go's `HandleL2UpdateMsg(msg, ob)`. -/
def HandleL2UpdateMsg (msg : obMsg) (ob : OrderBook) : Except Fault OrderBook :=
  l2Changes msg.Changes ob

/-- Go's `HandleMessage(msg, ob)`: the switch on `msg.Type`; the cases
`subscriptions` and `heartbeat` only print. -/
def HandleMessage (msg : obMsg) (ob : OrderBook) : Except Fault OrderBook :=
  if msg.Typ = "subscriptions" then pure ob
  else if msg.Typ = "snapshot" then HandleObSnapshotMsg msg ob
  else if msg.Typ = "l2update" then HandleL2UpdateMsg msg ob
  else if msg.Typ = "heartbeat" then pure ob
  else pure ob

/-- The emission step of `ListenToBestOrders`: the statement
`if len(ob.BidPrices) > 0 { ... bestOrders <- ... }`; the result is the value
sent on the channel, if any. -/
def emitBestOrders (ob : OrderBook) : Except Fault (Option Quote) :=
  if ob.BidPrices.len > 0 then do
    let q ← bestOrdersOf ob
    pure (some q)
  else pure none

/-- One iteration of the loop of `ListenToBestOrders` on a decoded message:
the book afterwards and the value sent, if any. -/
def listenStep (msg : obMsg) (ob : OrderBook) : Except Fault (OrderBook × Option Quote) := do
  let ob ← HandleMessage msg ob
  let out ← emitBestOrders ob
  pure (ob, out)

/-- Consecutive iterations of the loop of `ListenToBestOrders`, starting from
the book `ob`: the final book and the values sent, oldest first. -/
def listenLoop : List obMsg → OrderBook → Except Fault (OrderBook × List Quote)
  | [], ob => pure (ob, [])
  | msg :: rest, ob => do
    let r ← listenStep msg ob
    let t ← listenLoop rest r.1
    pure (t.1, r.2.toList ++ t.2)

end coinbase

/-! ## package kraken -/

/-- A decoded JSON document, as `json.Unmarshal` hands it over in an
`interface{}`: nil, bool, float64, string, `[]interface{}` or
`map[string]interface{}` (an object is kept as its list of members). -/
inductive JSON where
  | null
  | bool (b : Bool)
  | number (x : F64)
  | string (s : String)
  | array (xs : List JSON)
  | object (kvs : List (String × JSON))

namespace JSON

/-- The type assertion `v.(float64)`. -/
def asFloat64 : JSON → Except Fault F64
  | number x => pure x
  | _ => throw Fault.panic

/-- The type assertion `v.(string)`. -/
def asString : JSON → Except Fault String
  | string s => pure s
  | _ => throw Fault.panic

/-- The type assertion `v.([]interface{})`. -/
def asSlice : JSON → Except Fault (List JSON)
  | array xs => pure xs
  | _ => throw Fault.panic

/-- The type assertion `v.(map[string]interface{})`. -/
def asMap : JSON → Except Fault (List (String × JSON))
  | object kvs => pure kvs
  | _ => throw Fault.panic

/-- The two-valued map lookup `v, ok := m[k]`; for a repeated key the last
member of the object counts. -/
def lookup (m : List (String × JSON)) (k : String) : Option JSON :=
  match m.reverse.find? (fun kv => kv.1 == k) with
  | some kv => some kv.2
  | none => none

/-- The map index `m[k]`: nil for an absent key. -/
def mapIndex (m : List (String × JSON)) (k : String) : JSON :=
  (lookup m k).getD null

/-- The slice index `xs[i]` on a `[]interface{}`. -/
def elem (xs : List JSON) (i : Nat) : Except Fault JSON :=
  match xs[i]? with
  | some v => pure v
  | none => throw Fault.panic

/-- Go's `fmt.Sprint` on one decoded value.  A string prints as itself, which
is the case of every field of a level the exchange sends; nil and booleans
print as Go prints them; the rendering of numbers and containers is not
modelled and is replaced by a tag. -/
def Sprint : JSON → String
  | string s => s
  | null => "<nil>"
  | bool true => "true"
  | bool false => "false"
  | number _ => "<float64>"
  | array _ => "<slice>"
  | object _ => "<map>"

/-- Whether `json.Unmarshal(raw, &tmp)` with `tmp []interface{}` succeeds, and
the value of `tmp`: an array decodes to its elements, null to the nil slice,
anything else is an error. -/
def toSlice : JSON → Option (List JSON)
  | array xs => some xs
  | null => some []
  | _ => none

/-- Whether `json.Unmarshal(raw, &m)` with `m map[string]string` succeeds:
the document is null or an object whose members are strings or null. -/
def isStringMap : JSON → Bool
  | object kvs => kvs.all (fun kv =>
      match kv.2 with
      | string _ => true
      | null => true
      | _ => false)
  | null => true
  | _ => false

end JSON

namespace kraken

/-- The struct `ObSnapshotMsg`; `channelId` keeps the decoded number, its
conversion to `int` is left out. -/
structure ObSnapshotMsg where
  channelId : F64
  as : List (String × String × String)
  bs : List (String × String × String)
  channelName : String
  pair : String

/-- One level of the snapshot, `[3]string{fmt.Sprint(o[0]), fmt.Sprint(o[1]), fmt.Sprint(o[2])}`. -/
def sprintOrder (orderInterface : JSON) : Except Fault (String × String × String) := do
  let o ← JSON.asSlice orderInterface
  let a ← JSON.elem o 0
  let b ← JSON.elem o 1
  let c ← JSON.elem o 2
  pure (JSON.Sprint a, JSON.Sprint b, JSON.Sprint c)

/-- The loops `for _, orderInterface := range orders[key].([]interface{})`. -/
def sprintOrders : List JSON → Except Fault (List (String × String × String))
  | [] => pure []
  | o :: rest => do
    let order ← sprintOrder o
    let more ← sprintOrders rest
    pure (order :: more)

/-- Lines "Parse the snapshot message" of `HandleObSnapshotMessage`. -/
def parseSnapshot (tmp : List JSON) : Except Fault ObSnapshotMsg := do
  let channelId ← (← JSON.elem tmp 0).asFloat64
  let orders ← (← JSON.elem tmp 1).asMap
  let as ← sprintOrders (← (JSON.mapIndex orders "as").asSlice)
  let bs ← sprintOrders (← (JSON.mapIndex orders "bs").asSlice)
  let channelName ← (← JSON.elem tmp 2).asString
  let pair ← (← JSON.elem tmp 3).asString
  pure ⟨channelId, as, bs, channelName, pair⟩

/-- First loop of "Create the local order book",
`for i := len(obSnapshotMsg.bs) - 1; i > 0; i--`, entered with the current `i`. -/
def snapshotBids (bs : List (String × String × String)) : Nat → OrderBook → Except Fault OrderBook
  | 0, ob => pure ob
  | i + 1, ob => do
    let bid ← match bs[i + 1]? with
      | some b => pure b
      | none => throw Fault.panic
    let p ← ParseFloat bid.1
    let s ← ParseFloat bid.2.1
    snapshotBids bs i
      { ob with BidPrices := ob.BidPrices.append [p], BidSizes := ob.BidSizes.append [s] }

/-- Second loop, `for _, ask := range obSnapshotMsg.as`. -/
def snapshotAsks : List (String × String × String) → OrderBook → Except Fault OrderBook
  | [], ob => pure ob
  | ask :: rest, ob => do
    let p ← ParseFloat ask.1
    let s ← ParseFloat ask.2.1
    snapshotAsks rest
      { ob with AskPrices := ob.AskPrices.append [p], AskSizes := ob.AskSizes.append [s] }

/-- Go's `HandleObSnapshotMessage(c)`.  The argument is what `c.ReadMessage`
delivers, decoded: `none` when the read fails or the bytes are not JSON.  The
result is `none` when the function returns an error, else the new book. -/
def HandleObSnapshotMessage (raw : Option JSON) : Except Fault (Option OrderBook) :=
  match raw with
  | none => pure none
  | some doc =>
    match doc.toSlice with
    | none => pure none
    | some tmp => do
      let obSnapshotMsg ← parseSnapshot tmp
      let ob ← snapshotBids obSnapshotMsg.bs (obSnapshotMsg.bs.length - 1) OrderBook.empty
      let ob ← snapshotAsks obSnapshotMsg.as ob
      pure (some ob)

/-- One entry of an update, `[3]string{x[0].(string), x[1].(string), x[2].(string)}`. -/
def foundOrder (x : JSON) : Except Fault (String × String × String) := do
  let a ← (← JSON.elem (← x.asSlice) 0).asString
  let b ← (← JSON.elem (← x.asSlice) 1).asString
  let c ← (← JSON.elem (← x.asSlice) 2).asString
  pure (a, b, c)

/-- The loops `for _, ask := range asks.([]interface{})` of `HandleObUpdateMsg`. -/
def foundOrders : List JSON → Except Fault (List (String × String × String))
  | [] => pure []
  | x :: rest => do
    let order ← foundOrder x
    let more ← foundOrders rest
    pure (order :: more)

/-- The loop `for _, a := range obUpdateMsg.a { ws.UpdateOb(a[0], a[1], &ob.AskPrices, &ob.AskSizes) }`. -/
def applyAsks : List (String × String × String) → OrderBook → Except Fault OrderBook
  | [], ob => pure ob
  | a :: rest, ob => do
    let r ← UpdateOb a.1 a.2.1 ob.AskPrices ob.AskSizes
    applyAsks rest { ob with AskPrices := r.1, AskSizes := r.2 }

/-- The loop `for _, b := range obUpdateMsg.b { ws.UpdateOb(b[0], b[1], &ob.BidPrices, &ob.BidSizes) }`. -/
def applyBids : List (String × String × String) → OrderBook → Except Fault OrderBook
  | [], ob => pure ob
  | b :: rest, ob => do
    let r ← UpdateOb b.1 b.2.1 ob.BidPrices ob.BidSizes
    applyBids rest { ob with BidPrices := r.1, BidSizes := r.2 }

/-- What `HandleObUpdateMsg` hands back: the boolean, whether the error is
non-nil, and the book behind the pointer. -/
structure UpdateResult where
  updated : Bool
  failed : Bool
  ob : OrderBook

/-- Go's `HandleObUpdateMsg(c, ob)`, on the decoded message (`none` when the
read fails or the bytes are not JSON). -/
def HandleObUpdateMsg (raw : Option JSON) (ob : OrderBook) : Except Fault UpdateResult :=
  match raw with
  | none => pure ⟨false, true, ob⟩
  | some doc =>
    if doc.isStringMap then pure ⟨false, false, ob⟩
    else match doc.toSlice with
      | none => pure ⟨false, true, ob⟩
      | some tmp => do
        let _channelId ← (← JSON.elem tmp 0).asFloat64
        let orders ← (← JSON.elem tmp 1).asMap
        let a ← match JSON.lookup orders "a" with
          | some asks => do foundOrders (← asks.asSlice)
          | none => pure []
        let b ← match JSON.lookup orders "b" with
          | some bids => do foundOrders (← bids.asSlice)
          | none => pure []
        let _channelName ← (← JSON.elem tmp 2).asString
        let _pair ← (← JSON.elem tmp 3).asString
        let ob ← applyAsks a ob
        let ob ← applyBids b ob
        pure ⟨true, false, ob⟩

/-- The emission step of `ListenToBestOrders`: the statement
`if updated && len(ob.BidPrices) > 0 { ... bestOrders <- ... }`. -/
def emitBestOrders (updated : Bool) (ob : OrderBook) : Except Fault (Option Quote) :=
  if updated && decide (ob.BidPrices.len > 0) then do
    let q ← bestOrdersOf ob
    pure (some q)
  else pure none

/-- One iteration of the loop of `ListenToBestOrders`: an error of
`HandleObUpdateMsg` ends in `log.Fatalf`. -/
def listenStep (raw : Option JSON) (ob : OrderBook) : Except Fault (OrderBook × Option Quote) := do
  let r ← HandleObUpdateMsg raw ob
  if r.failed then throw Fault.fatal
  else do
    let out ← emitBestOrders r.updated r.ob
    pure (r.ob, out)

end kraken

/-! ## package main -/

namespace F64

/-- Go's `a - b` on float64, exact on finite operands. -/
def sub : F64 → F64 → F64
  | nan, _ => nan
  | _, nan => nan
  | posInf, posInf => nan
  | negInf, negInf => nan
  | posInf, _ => posInf
  | negInf, _ => negInf
  | fin _, posInf => negInf
  | fin _, negInf => posInf
  | fin a, fin b => fin (a - b)

/-- Go's `a / b` on float64, exact on finite operands; a zero divisor is the
positive zero. -/
def div : F64 → F64 → F64
  | nan, _ => nan
  | _, nan => nan
  | posInf, posInf => nan
  | posInf, negInf => nan
  | negInf, posInf => nan
  | negInf, negInf => nan
  | posInf, fin b => if decide (b < 0) then negInf else posInf
  | negInf, fin b => if decide (b < 0) then posInf else negInf
  | fin _, posInf => fin 0
  | fin _, negInf => fin 0
  | fin a, fin b =>
    if b = 0 then
      if a = 0 then nan else if decide (0 < a) then posInf else negInf
    else fin (a / b)

end F64

namespace main

/-- The zero value of `[2][2]float64`. -/
def zeroQuote : Quote := ((F64.zero, F64.zero), (F64.zero, F64.zero))

/-- The two variables of `main` that hold the last value received from each feed. -/
structure State where
  cbseBestOrders : Quote
  krknBestOrders : Quote

/-- The state before the loop: `var cbseBestOrders [2][2]float64` and
`var krknBestOrders [2][2]float64`. -/
def State.init : State := ⟨zeroQuote, zeroQuote⟩

/-- The case of the `select` that fires, with the value received. -/
inductive Recv where
  | coinbase (q : Quote)
  | kraken (q : Quote)

/-- The two numbers printed by one iteration, `cbse->krkn` and `krkn->cbse`. -/
def spreads (st : State) : F64 × F64 :=
  (F64.div (F64.sub st.cbseBestOrders.2.1 st.krknBestOrders.1.1) st.cbseBestOrders.2.1,
   F64.div (F64.sub st.krknBestOrders.2.1 st.cbseBestOrders.1.1) st.krknBestOrders.2.1)

/-- One iteration of the loop of `main`: the `select` stores the received
value, then the two `Printf` calls run.  The second component lists what the
iteration prints. -/
def step (st : State) (r : Recv) : State × List (F64 × F64) :=
  let st1 : State :=
    match r with
    | Recv.coinbase q => { st with cbseBestOrders := q }
    | Recv.kraken q => { st with krknBestOrders := q }
  (st1, [spreads st1])

/-- Consecutive iterations of the loop of `main`: the final state and all the
printed pairs, oldest first. -/
def run : List Recv → State → State × List (F64 × F64)
  | [], st => (st, [])
  | r :: rest, st =>
    let a := step st r
    let b := run rest a.1
    (b.1, a.2 ++ b.2)

end main

/-! ## Sessions and the integrity check -/

/-- The method `Less` of Go's `sort.Float64Slice`: `x[i] < x[j]`, or `x[i]` is
NaN and `x[j]` is not. -/
def Float64Less (a b : F64) : Bool := F64.lt a b || (F64.isNaN a && !F64.isNaN b)

/-- Go's `sort.Float64sAreSorted`: no element is `Less` than its predecessor. -/
def Float64sAreSorted : List F64 → Bool
  | a :: b :: rest => !Float64Less b a && Float64sAreSorted (b :: rest)
  | _ => true

namespace coinbase

/-- The lines "Check the integrity of the book" of `HandleObSnapshotMsg`: what
they print for the book the two loops have built. -/
def integrityPrints (ob : OrderBook) : List String :=
  (if !Float64sAreSorted ob.BidPrices.data then ["Bid prices not sorted."] else []) ++
  (if !Float64sAreSorted ob.AskPrices.data then ["Ask prices not sorted."] else [])

/-- The routing of one change as the specification words it: a `buy` change
is applied by `UpdateOb` to the bid slices only, a `sell` change to the ask
slices only, any other side string leaves the book unchanged. -/
def routeChange (ob : OrderBook) (change : String × String × String) : Except Fault OrderBook :=
  if change.1 = "buy" then
    match UpdateOb change.2.1 change.2.2 ob.BidPrices ob.BidSizes with
    | .ok r => .ok ⟨r.1, r.2, ob.AskPrices, ob.AskSizes⟩
    | .error e => .error e
  else if change.1 = "sell" then
    match UpdateOb change.2.1 change.2.2 ob.AskPrices ob.AskSizes with
    | .ok r => .ok ⟨ob.BidPrices, ob.BidSizes, r.1, r.2⟩
    | .error e => .error e
  else .ok ob

/-- The left-to-right fold of `routeChange` over a change list. -/
def foldChanges (changes : List (String × String × String)) (ob : OrderBook) :
    Except Fault OrderBook :=
  changes.foldlM routeChange ob

end coinbase

namespace kraken

/-- Consecutive iterations of the loop of `ListenToBestOrders` after the
snapshot, starting from the book `ob`: the final book and the values sent,
oldest first. -/
def listenLoop : List (Option JSON) → OrderBook → Except Fault (OrderBook × List Quote)
  | [], ob => pure (ob, [])
  | raw :: rest, ob => do
    let r ← listenStep raw ob
    let t ← listenLoop rest r.1
    pure (t.1, r.2.toList ++ t.2)

end kraken

namespace coinbase

/-- Go's `HandleObSnapshotMsg(msg, ob)` with its output: the book the two
loops leave and the lines the integrity check prints for it. -/
def HandleObSnapshotMsgPrints (msg : obMsg) (ob : OrderBook) :
    Except Fault (OrderBook × List String) := do
  let ob1 ← HandleObSnapshotMsg msg ob
  pure (ob1, integrityPrints ob1)

end coinbase

namespace kraken

/-- One level on the wire, `[price, size, timestamp]` as three JSON strings. -/
def levelDoc (x : String × String × String) : JSON :=
  JSON.array [JSON.string x.1, JSON.string x.2.1, JSON.string x.2.2]

/-- The payload of a delta message: the member `a` with the ask changes and
the member `b` with the bid changes; a list that is `none` is a key left out. -/
def ordersDoc (a b : Option (List (String × String × String))) : List (String × JSON) :=
  (match a with
    | some l => [("a", JSON.array (l.map levelDoc))]
    | none => []) ++
  (match b with
    | some l => [("b", JSON.array (l.map levelDoc))]
    | none => [])

/-- The wire shape of a Kraken delta message,
`[channelId, {"a": [...], "b": [...]}, channelName, pair]`. -/
def deltaDoc (channelId : F64) (a b : Option (List (String × String × String)))
    (channelName pair : String) : JSON :=
  JSON.array [JSON.number channelId, JSON.object (ordersDoc a b),
    JSON.string channelName, JSON.string pair]

/-- One ask change as the specification words it: `UpdateOb(price, size)` on
the ask slices, the bid slices left alone. -/
def askStep (ob : OrderBook) (x : String × String × String) : Except Fault OrderBook :=
  match UpdateOb x.1 x.2.1 ob.AskPrices ob.AskSizes with
  | .ok r => .ok ⟨ob.BidPrices, ob.BidSizes, r.1, r.2⟩
  | .error e => .error e

/-- One bid change as the specification words it: `UpdateOb(price, size)` on
the bid slices, the ask slices left alone. -/
def bidStep (ob : OrderBook) (x : String × String × String) : Except Fault OrderBook :=
  match UpdateOb x.1 x.2.1 ob.BidPrices ob.BidSizes with
  | .ok r => .ok ⟨r.1, r.2, ob.AskPrices, ob.AskSizes⟩
  | .error e => .error e

/-- Applying a delta: its ask changes in order, then its bid changes in order. -/
def applyDelta (a b : List (String × String × String)) (ob : OrderBook) :
    Except Fault OrderBook := do
  let m ← a.foldlM askStep ob
  b.foldlM bidStep m

end kraken

/-! ## Predicates of the specification -/

/-- Strictly ascending by price: every element is `<` every later one (for a
transitive `<` the same as `a[i] < a[i+1]` for consecutive elements). -/
def StrictAsc (l : List F64) : Prop := l.Pairwise (fun a b => F64.lt a b = true)

instance (l : List F64) : Decidable (StrictAsc l) := by unfold StrictAsc; infer_instance

/-- No element is NaN. -/
def NoNaN (l : List F64) : Prop := ∀ x ∈ l, x ≠ F64.nan

instance (l : List F64) : Decidable (NoNaN l) := by unfold NoNaN; infer_instance

/-- What `ParseFloat` makes of the prices of a list of levels. -/
def ParsedPrices (levels : List (String × String)) (vs : List F64) : Prop :=
  List.Forall₂ (fun (b : String × String) (v : F64) => ParseFloat b.1 = .ok v) levels vs

/-- What `ParseFloat` makes of the sizes of a list of levels. -/
def ParsedSizes (levels : List (String × String)) (vs : List F64) : Prop :=
  List.Forall₂ (fun (b : String × String) (v : F64) => ParseFloat b.2 = .ok v) levels vs

/-- Both fields of every level of the list parse. -/
def AllParse (levels : List (String × String)) : Prop :=
  ∀ b ∈ levels, (∃ v, ParseFloat b.1 = .ok v) ∧ (∃ w, ParseFloat b.2 = .ok w)

/-! ## Lemmas: float64 comparisons -/

theorem F64.lt_chain {a b c : F64} (h1 : F64.lt a b = true) (h2 : F64.lt b c = true) :
    F64.lt a c = true := by
  cases a <;> cases b <;> cases c <;> simp_all [F64.lt]
  exact lt_trans h1 h2

theorem F64.lt_self (a : F64) : F64.lt a a = false := by
  cases a <;> simp [F64.lt]

theorem F64.lt_flip {a b : F64} (h : F64.lt a b = true) : F64.lt b a = false := by
  cases a <;> cases b <;> simp_all [F64.lt]
  exact le_of_lt h

theorem F64.lt_ne_nan_left {a b : F64} (h : F64.lt a b = true) : a ≠ F64.nan := by
  cases a <;> simp_all [F64.lt]

theorem F64.lt_ne_nan_right {a b : F64} (h : F64.lt a b = true) : b ≠ F64.nan := by
  cases a <;> cases b <;> simp_all [F64.lt]

theorem F64.eq_iff {a b : F64} : F64.eq a b = true ↔ a = b ∧ a ≠ F64.nan := by
  cases a <;> cases b <;> simp [F64.eq]

theorem F64.ge_iff_not_lt {a b : F64} (ha : a ≠ F64.nan) (hb : b ≠ F64.nan) :
    F64.ge a b = true ↔ F64.lt a b = false := by
  cases a <;> cases b <;> simp_all [F64.ge, F64.lt, F64.eq]
  rename_i x y
  constructor
  · rintro (h | h)
    · exact le_of_lt h
    · exact le_of_eq h.symm
  · intro h
    rcases lt_or_eq_of_le h with h | h
    · exact Or.inl h
    · exact Or.inr h.symm

theorem F64.ge_nan (a : F64) : F64.ge a F64.nan = false := by
  cases a <;> simp [F64.ge, F64.lt, F64.eq]

theorem F64.trichotomy {a b : F64} (ha : a ≠ F64.nan) (hb : b ≠ F64.nan) :
    F64.lt a b = true ∨ a = b ∨ F64.lt b a = true := by
  cases a <;> cases b <;> simp_all [F64.lt]
  rename_i x y
  rcases lt_trichotomy x y with h | h | h
  · exact Or.inl h
  · exact Or.inr (Or.inl h)
  · exact Or.inr (Or.inr h)

/-! ## Lemmas: binary search -/

/-- Invariant of the loop of `sort.Search` for a monotone predicate: the
result `r` separates the indices where `f` is false from those where it is true. -/
theorem searchLoop_spec (f : Nat → Bool) (n : Nat)
    (mono : ∀ a b, a ≤ b → b < n → f a = true → f b = true) :
    ∀ (fuel i j : Nat), i ≤ j → j ≤ n → j - i ≤ fuel →
      (∀ k, k < i → f k = false) → (∀ k, j ≤ k → k < n → f k = true) →
      (searchLoop f fuel i j ≤ n ∧ (∀ k, k < searchLoop f fuel i j → f k = false) ∧
        (∀ k, searchLoop f fuel i j ≤ k → k < n → f k = true)) := by
  intro fuel
  induction fuel with
  | zero =>
    intro i j hij hjn hfuel hlo hhi
    have hi : i = j := by omega
    subst hi
    simp only [searchLoop]
    exact ⟨hjn, hlo, hhi⟩
  | succ fuel ih =>
    intro i j hij hjn hfuel hlo hhi
    simp only [searchLoop]
    by_cases hlt : i < j
    · simp only [hlt, if_true]
      have hh1 : i ≤ (i + j) / 2 := by omega
      have hh2 : (i + j) / 2 < j := by omega
      cases hf : f ((i + j) / 2) with
      | false =>
        simp only [Bool.not_false, if_true]
        apply ih ((i + j) / 2 + 1) j (by omega) hjn (by omega) _ hhi
        intro k hk
        cases hfk : f k with
        | false => rfl
        | true =>
          have := mono k ((i + j) / 2) (by omega) (by omega) hfk
          rw [hf] at this
          exact absurd this (by simp)
      | true =>
        simp only [Bool.not_true, Bool.false_eq_true, if_false]
        apply ih i ((i + j) / 2) hh1 (by omega) (by omega) hlo
        intro k hk hkn
        exact mono ((i + j) / 2) k hk hkn hf
    · simp only [hlt, if_false]
      have hi : i = j := by omega
      subst hi
      exact ⟨hjn, hlo, hhi⟩

theorem Search_spec (f : Nat → Bool) (n : Nat)
    (mono : ∀ a b, a ≤ b → b < n → f a = true → f b = true) :
    Search n f ≤ n ∧ (∀ k, k < Search n f → f k = false) ∧
      (∀ k, Search n f ≤ k → k < n → f k = true) := by
  unfold Search
  apply searchLoop_spec f n mono n 0 n (Nat.zero_le _) (le_refl _) (by omega)
  · intro k hk; omega
  · intro k hk hkn; omega

/-- The result of `sort.Search` never exceeds `n`, whatever the predicate. -/
theorem searchLoop_le (f : Nat → Bool) (n : Nat) :
    ∀ (fuel i j : Nat), i ≤ j → j ≤ n → searchLoop f fuel i j ≤ n := by
  intro fuel
  induction fuel with
  | zero => intro i j hij hjn; simp only [searchLoop]; omega
  | succ fuel ih =>
    intro i j hij hjn
    simp only [searchLoop]
    by_cases hlt : i < j
    · simp only [hlt, if_true]
      cases hf : f ((i + j) / 2) with
      | false =>
        simp only [Bool.not_false, if_true]
        exact ih _ _ (by omega) hjn
      | true =>
        simp only [Bool.not_true, Bool.false_eq_true, if_false]
        exact ih _ _ (by omega) (by omega)
    · simp only [hlt, if_false]; omega

theorem SearchFloat64s_le (a : List F64) (x : F64) : SearchFloat64s a x ≤ a.length := by
  unfold SearchFloat64s Search
  exact searchLoop_le _ _ _ _ _ (Nat.zero_le _) (le_refl _)

/-- On a strictly ascending NaN-free list, `SearchFloat64s` returns the number
of elements below `x`: everything before the index is `< x`, nothing from the
index on is. -/
theorem SearchFloat64s_spec (a : List F64) (x : F64) (hs : StrictAsc a) (hn : NoNaN a)
    (hx : x ≠ F64.nan) :
    SearchFloat64s a x ≤ a.length ∧
    (∀ v ∈ a.take (SearchFloat64s a x), F64.lt v x = true) ∧
    (∀ v ∈ a.drop (SearchFloat64s a x), F64.lt v x = false) := by
  have getD_mem : ∀ k, k < a.length → a.getD k F64.nan ∈ a := by
    intro k hk
    rw [List.getD_eq_getElem _ _ hk]
    exact List.getElem_mem hk
  have mono : ∀ i j, i ≤ j → j < a.length →
      F64.ge (a.getD i F64.nan) x = true → F64.ge (a.getD j F64.nan) x = true := by
    intro i j hij hj hi
    rcases Nat.lt_or_ge i j with h | h
    · have hlt : F64.lt (a.getD i F64.nan) (a.getD j F64.nan) = true := by
        rw [List.getD_eq_getElem _ _ hj, List.getD_eq_getElem _ _ (by omega : i < a.length)]
        exact List.pairwise_iff_getElem.mp hs i j (by omega) hj h
      rw [F64.ge_iff_not_lt (hn _ (getD_mem i (by omega))) hx] at hi
      rw [F64.ge_iff_not_lt (hn _ (getD_mem j hj)) hx]
      cases hjx : F64.lt (a.getD j F64.nan) x with
      | false => rfl
      | true =>
        have := F64.lt_chain hlt hjx
        rw [hi] at this
        exact absurd this (by simp)
    · have : i = j := by omega
      subst this; exact hi
  obtain ⟨h1, h2, h3⟩ : SearchFloat64s a x ≤ a.length ∧
      (∀ k, k < SearchFloat64s a x → F64.ge (a.getD k F64.nan) x = false) ∧
      (∀ k, SearchFloat64s a x ≤ k → k < a.length → F64.ge (a.getD k F64.nan) x = true) :=
    Search_spec _ a.length mono
  refine ⟨h1, ?_, ?_⟩
  · intro v hv
    obtain ⟨k, hk, rfl⟩ := List.getElem_of_mem hv
    rw [List.length_take] at hk
    rw [List.getElem_take]
    have hk1 : k < SearchFloat64s a x := by omega
    have hk2 : k < a.length := by omega
    have := h2 k hk1
    rw [List.getD_eq_getElem _ _ hk2] at this
    have hnn := hn _ (List.getElem_mem hk2)
    cases hv : F64.lt a[k] x with
    | true => rfl
    | false =>
      rw [← F64.ge_iff_not_lt hnn hx] at hv
      rw [hv] at this
      exact absurd this (by simp)
  · intro v hv
    obtain ⟨k, hk, rfl⟩ := List.getElem_of_mem hv
    rw [List.length_drop] at hk
    rw [List.getElem_drop]
    have hk2 : SearchFloat64s a x + k < a.length := by omega
    have := h3 (SearchFloat64s a x + k) (by omega) hk2
    rw [List.getD_eq_getElem _ _ hk2] at this
    exact (F64.ge_iff_not_lt (hn _ (List.getElem_mem hk2)) hx).mp this

/-! ## Lemmas: slices -/

theorem Slice.data_length (s : Slice) (h : s.WF) : s.data.length = s.len := by
  unfold Slice.WF Slice.cap at h
  simp [Slice.data, h]

theorem Slice.index_eq (s : Slice) (i : Nat) (v : F64) (h : i < s.len)
    (hv : s.data[i]? = some v) : s.index i = .ok v := by
  unfold Slice.data at hv
  rw [List.getElem?_take_of_lt h] at hv
  simp [Slice.index, h, hv]

theorem Slice.set_data (s t : Slice) (i : Nat) (v : F64) (h : s.set i v = .ok t) :
    t.data = s.data.set i v ∧ t.len = s.len ∧ t.cap = s.cap := by
  unfold Slice.set at h
  split at h
  · injection h with h
    subst h
    simp [Slice.data, Slice.cap, List.set_take]
  · simp at h

theorem Slice.data_mk_set (s : Slice) (i : Nat) (v : F64) :
    Slice.data ⟨s.arr.set i v, s.len⟩ = s.data.set i v := by
  simp [Slice.data, List.set_take]

theorem Slice.append_len (s : Slice) (xs : List F64) :
    (s.append xs).len = s.len + xs.length := by
  unfold Slice.append
  simp only []
  split <;> rfl

theorem Slice.append_data (s : Slice) (xs : List F64) (h : s.WF) :
    (s.append xs).data = s.data ++ xs := by
  unfold Slice.WF Slice.cap at h
  unfold Slice.append Slice.data
  simp only []
  split
  · simp only []
    rw [List.append_assoc, List.take_append_eq_append_take]
    simp [h]
  · simp only []
    rw [List.append_assoc, List.take_append_eq_append_take]
    simp [h]

theorem Slice.append_WF (s : Slice) (xs : List F64) (h : s.WF) : (s.append xs).WF := by
  unfold Slice.WF Slice.cap at *
  unfold Slice.append
  simp only []
  split
  · rename_i hc
    unfold Slice.cap at hc
    simp [h]
  · simp [h]

/-! ## Lemmas: the three branches of UpdateOb -/

theorem take_drop_erase {α : Type} (arr : List α) (len idx : Nat) (h : idx < len) :
    arr.take idx ++ (arr.drop (idx + 1)).take (len - (idx + 1)) = (arr.take len).eraseIdx idx := by
  rw [List.eraseIdx_eq_take_drop_succ, List.take_take, List.drop_take]
  rw [Nat.min_eq_left (by omega)]

theorem take_succ_insert {α : Type} (arr : List α) (len idx : Nat) (v : α) (h : idx ≤ len)
    (hc : idx + 1 ≤ arr.length) :
    (arr.take (idx + 1) ++ (arr.drop idx).take (len - idx)).set idx v
      = (arr.take len).take idx ++ v :: (arr.take len).drop idx := by
  rw [List.take_take, List.drop_take, Nat.min_eq_left h]
  rw [List.take_succ, List.getElem?_eq_getElem (by omega)]
  simp only [Option.toList_some, List.append_assoc, List.singleton_append]
  have hl : (arr.take idx).length = idx := by simp; omega
  rw [List.set_append_right _ _ (by omega)]
  simp [hl]

/-- Branch "remove the order price level": the level found by the search is
erased from both slices. -/
theorem UpdateOb_delete (price size : String) (ps ss : Slice) (p s v : F64)
    (hps : ps.WF) (hss : ss.WF) (hlen : ps.len = ss.len)
    (hp : ParseFloat price = .ok p) (hs : ParseFloat size = .ok s)
    (hv : ps.data[SearchFloat64s ps.data p]? = some v) (hvp : F64.eq v p = true)
    (hz : F64.eq s F64.zero = true) :
    ∃ r, UpdateOb price size ps ss = .ok r ∧
      r.1.data = ps.data.eraseIdx (SearchFloat64s ps.data p) ∧
      r.2.data = ss.data.eraseIdx (SearchFloat64s ps.data p) ∧
      r.1.WF ∧ r.2.WF ∧ r.1.len = r.2.len := by
  have hidx : SearchFloat64s ps.data p < ps.len := by
    have := (List.getElem?_eq_some_iff.mp hv).1
    rwa [Slice.data_length ps hps] at this
  have hi := Slice.index_eq ps _ v hidx hv
  have hc1 : SearchFloat64s ps.data p ≤ ps.cap := by unfold Slice.WF at hps; omega
  have hc2 : SearchFloat64s ps.data p ≤ ss.cap := by unfold Slice.WF at hss; omega
  have hl2 : SearchFloat64s ps.data p + 1 ≤ ss.len := by omega
  have hrun : UpdateOb price size ps ss = .ok
      (Slice.append ⟨ps.arr, SearchFloat64s ps.data p⟩
        (Slice.data ⟨ps.arr.drop (SearchFloat64s ps.data p + 1),
          ps.len - (SearchFloat64s ps.data p + 1)⟩),
       Slice.append ⟨ss.arr, SearchFloat64s ps.data p⟩
        (Slice.data ⟨ss.arr.drop (SearchFloat64s ps.data p + 1),
          ss.len - (SearchFloat64s ps.data p + 1)⟩)) := by
    simp only [UpdateOb, hp, hs, bind, Except.bind, pure, Except.pure, hidx, if_true, hi, hvp, hz,
      Slice.upTo, Slice.dropFront, hc1, hc2, Nat.succ_le_of_lt hidx, hl2]
  generalize SearchFloat64s ps.data p = idx at *
  have hw1 : (⟨ps.arr, idx⟩ : Slice).WF := hc1
  have hw2 : (⟨ss.arr, idx⟩ : Slice).WF := hc2
  refine ⟨_, hrun, ?_, ?_, ?_, ?_, ?_⟩
  · rw [Slice.append_data _ _ hw1]
    exact take_drop_erase ps.arr ps.len idx hidx
  · rw [Slice.append_data _ _ hw2]
    exact take_drop_erase ss.arr ss.len idx (by omega)
  · exact Slice.append_WF _ _ hw1
  · exact Slice.append_WF _ _ hw2
  · rw [Slice.append_len, Slice.append_len]
    simp only [Slice.data, List.length_take, List.length_drop]
    unfold Slice.WF Slice.cap at hps hss
    omega

/-- Branch "replace this price level size": the prices are untouched and the
size at the index found by the search is overwritten. -/
theorem UpdateOb_replace (price size : String) (ps ss : Slice) (p s v : F64)
    (hps : ps.WF) (hss : ss.WF) (hlen : ps.len = ss.len)
    (hp : ParseFloat price = .ok p) (hs : ParseFloat size = .ok s)
    (hv : ps.data[SearchFloat64s ps.data p]? = some v) (hvp : F64.eq v p = true)
    (hz : F64.eq s F64.zero = false) :
    ∃ r, UpdateOb price size ps ss = .ok r ∧
      r.1 = ps ∧
      r.2.data = ss.data.set (SearchFloat64s ps.data p) s ∧
      r.2.WF ∧ r.1.len = r.2.len := by
  have hidx : SearchFloat64s ps.data p < ps.len := by
    have := (List.getElem?_eq_some_iff.mp hv).1
    rwa [Slice.data_length ps hps] at this
  have hi := Slice.index_eq ps _ v hidx hv
  have hl2 : SearchFloat64s ps.data p < ss.len := by omega
  have hrun : UpdateOb price size ps ss = .ok
      (ps, ⟨ss.arr.set (SearchFloat64s ps.data p) s, ss.len⟩) := by
    simp only [UpdateOb, hp, hs, bind, Except.bind, pure, Except.pure, hidx, if_true, hi, hvp, hz,
      Slice.set, hl2]
    simp
  refine ⟨_, hrun, rfl, ?_, ?_, ?_⟩
  · simp [Slice.data, List.set_take]
  · unfold Slice.WF Slice.cap at *
    simpa using hss
  · exact hlen

/-- Branch "the price level does not exist": when the slice expression
`[:idx+1]` is within the capacity of both slices, the level is inserted at the
index returned by the search. -/
theorem UpdateOb_insert (price size : String) (ps ss : Slice) (p s : F64)
    (hps : ps.WF) (hss : ss.WF) (hlen : ps.len = ss.len)
    (hp : ParseFloat price = .ok p) (hs : ParseFloat size = .ok s)
    (hnf : ∀ v, ps.data[SearchFloat64s ps.data p]? = some v → F64.eq v p = false)
    (hroom1 : SearchFloat64s ps.data p + 1 ≤ ps.cap)
    (hroom2 : SearchFloat64s ps.data p + 1 ≤ ss.cap) :
    ∃ r, UpdateOb price size ps ss = .ok r ∧
      r.1.data = ps.data.take (SearchFloat64s ps.data p) ++ p ::
        ps.data.drop (SearchFloat64s ps.data p) ∧
      r.2.data = ss.data.take (SearchFloat64s ps.data p) ++ s ::
        ss.data.drop (SearchFloat64s ps.data p) ∧
      r.1.WF ∧ r.2.WF ∧ r.1.len = r.2.len := by
  have hle : SearchFloat64s ps.data p ≤ ps.len := by
    have := SearchFloat64s_le ps.data p
    rwa [Slice.data_length ps hps] at this
  have hle2 : SearchFloat64s ps.data p ≤ ss.len := by omega
  have hfound : SearchFloat64s ps.data p < ps.len →
      ∃ v, ps.index (SearchFloat64s ps.data p) = .ok v ∧ F64.eq v p = false := by
    intro hlt
    have hd : SearchFloat64s ps.data p < ps.data.length := by
      rw [Slice.data_length ps hps]; exact hlt
    have hget : ps.data[SearchFloat64s ps.data p]? = some (ps.data[SearchFloat64s ps.data p]) :=
      List.getElem?_eq_getElem hd
    exact ⟨_, Slice.index_eq ps _ _ hlt hget, hnf _ hget⟩
  generalize hI : SearchFloat64s ps.data p = idx at *
  have hw1 : (⟨ps.arr, idx + 1⟩ : Slice).WF := hroom1
  have hw2 : (⟨ss.arr, idx + 1⟩ : Slice).WF := hroom2
  have hlt1 : idx < (Slice.append ⟨ps.arr, idx + 1⟩
      (Slice.data ⟨ps.arr.drop idx, ps.len - idx⟩)).len := by
    rw [Slice.append_len]; simp only []; omega
  have hlt2 : idx < (Slice.append ⟨ss.arr, idx + 1⟩
      (Slice.data ⟨ss.arr.drop idx, ss.len - idx⟩)).len := by
    rw [Slice.append_len]; simp only []; omega
  have hrun : UpdateOb price size ps ss = .ok
      (⟨(Slice.append ⟨ps.arr, idx + 1⟩ (Slice.data ⟨ps.arr.drop idx, ps.len - idx⟩)).arr.set idx p,
        (Slice.append ⟨ps.arr, idx + 1⟩ (Slice.data ⟨ps.arr.drop idx, ps.len - idx⟩)).len⟩,
       ⟨(Slice.append ⟨ss.arr, idx + 1⟩ (Slice.data ⟨ss.arr.drop idx, ss.len - idx⟩)).arr.set idx s,
        (Slice.append ⟨ss.arr, idx + 1⟩ (Slice.data ⟨ss.arr.drop idx, ss.len - idx⟩)).len⟩) := by
    by_cases hlt : idx < ps.len
    · obtain ⟨v, hiv, hvf⟩ := hfound hlt
      simp only [UpdateOb, hp, hs, bind, Except.bind, pure, Except.pure, hI, hlt, hiv, hvf,
        Slice.upTo, Slice.dropFront, hroom1, hroom2, hle, hle2, Slice.set, hlt1, hlt2, if_true]
      simp
    · simp only [UpdateOb, hp, hs, bind, Except.bind, pure, Except.pure, hI, hlt,
        Slice.upTo, Slice.dropFront, hroom1, hroom2, hle, hle2, Slice.set, hlt1, hlt2, if_true,
        if_false]
      simp
  refine ⟨_, hrun, ?_, ?_, ?_, ?_, ?_⟩
  · show Slice.data ⟨List.set _ _ _, _⟩ = _
    rw [Slice.data_mk_set,
      Slice.append_data ⟨ps.arr, idx + 1⟩ (Slice.data ⟨ps.arr.drop idx, ps.len - idx⟩) hw1]
    exact take_succ_insert ps.arr ps.len idx p hle hroom1
  · show Slice.data ⟨List.set _ _ _, _⟩ = _
    rw [Slice.data_mk_set,
      Slice.append_data ⟨ss.arr, idx + 1⟩ (Slice.data ⟨ss.arr.drop idx, ss.len - idx⟩) hw2]
    exact take_succ_insert ss.arr ss.len idx s hle2 hroom2
  · have := Slice.append_WF ⟨ps.arr, idx + 1⟩ (Slice.data ⟨ps.arr.drop idx, ps.len - idx⟩) hw1
    unfold Slice.WF Slice.cap at *
    simpa using this
  · have := Slice.append_WF ⟨ss.arr, idx + 1⟩ (Slice.data ⟨ss.arr.drop idx, ss.len - idx⟩) hw2
    unfold Slice.WF Slice.cap at *
    simpa using this
  · show (Slice.append _ _).len = (Slice.append _ _).len
    rw [Slice.append_len, Slice.append_len]
    simp only [Slice.data, List.length_take, List.length_drop]
    unfold Slice.WF Slice.cap at hps hss
    omega

/-- Branch "the price level does not exist" when the slice expression
`[:idx+1]` exceeds the capacity of one of the slices: run-time panic. -/
theorem UpdateOb_insert_panic (price size : String) (ps ss : Slice) (p s : F64)
    (hps : ps.WF)
    (hp : ParseFloat price = .ok p) (hs : ParseFloat size = .ok s)
    (hnf : ∀ v, ps.data[SearchFloat64s ps.data p]? = some v → F64.eq v p = false)
    (hroom : ¬ (SearchFloat64s ps.data p + 1 ≤ ps.cap ∧ SearchFloat64s ps.data p + 1 ≤ ss.cap)) :
    UpdateOb price size ps ss = .error .panic := by
  have hle : SearchFloat64s ps.data p ≤ ps.len := by
    have := SearchFloat64s_le ps.data p
    rwa [Slice.data_length ps hps] at this
  have hfound : SearchFloat64s ps.data p < ps.len →
      ∃ v, ps.index (SearchFloat64s ps.data p) = .ok v ∧ F64.eq v p = false := by
    intro hlt
    have hd : SearchFloat64s ps.data p < ps.data.length := by
      rw [Slice.data_length ps hps]; exact hlt
    have hget : ps.data[SearchFloat64s ps.data p]? = some (ps.data[SearchFloat64s ps.data p]) :=
      List.getElem?_eq_getElem hd
    exact ⟨_, Slice.index_eq ps _ _ hlt hget, hnf _ hget⟩
  generalize hI : SearchFloat64s ps.data p = idx at *
  have key : ∀ (found : Bool), found = false →
      (if found = true then
        (if F64.eq s F64.zero = true then
          (do
            let ph ← ps.upTo idx
            let pt ← ps.dropFront (idx + 1)
            let sh ← ss.upTo idx
            let st ← ss.dropFront (idx + 1)
            pure (ph.append pt.data, sh.append st.data) : Except Fault Side)
        else do
          let sizes ← ss.set idx s
          pure (ps, sizes))
      else do
        let ph ← ps.upTo (idx + 1)
        let pt ← ps.dropFront idx
        let prices ← (ph.append pt.data).set idx p
        let sh ← ss.upTo (idx + 1)
        let st ← ss.dropFront idx
        let sizes ← (sh.append st.data).set idx s
        pure (prices, sizes)) = .error .panic := by
    intro found hf
    subst hf
    simp only [Bool.false_eq_true, if_false, bind, Except.bind, Slice.upTo, Slice.dropFront, hle,
      if_true]
    by_cases h1 : idx + 1 ≤ ps.cap
    · have h2 : ¬ idx + 1 ≤ ss.cap := fun h => hroom ⟨h1, h⟩
      have hlt1 : idx < (Slice.append ⟨ps.arr, idx + 1⟩
          (Slice.data ⟨ps.arr.drop idx, ps.len - idx⟩)).len := by
        rw [Slice.append_len]; simp only []; omega
      simp only [h1, h2, if_true, if_false, Slice.set, hlt1]
    · simp only [h1, if_false]
  by_cases hlt : idx < ps.len
  · obtain ⟨v, hiv, hvf⟩ := hfound hlt
    have := key false rfl
    simp only [UpdateOb, hp, hs, bind, Except.bind, pure, Except.pure, hI, hlt, hiv, hvf, if_true]
      at this ⊢
    exact this
  · have := key false rfl
    simp only [UpdateOb, hp, hs, bind, Except.bind, pure, Except.pure, hI, hlt, if_false]
      at this ⊢
    exact this

/-! ## Lemmas: sortedness -/

theorem StrictAsc_eraseIdx {l : List F64} (h : StrictAsc l) (i : Nat) :
    StrictAsc (l.eraseIdx i) :=
  List.Pairwise.sublist (List.eraseIdx_sublist l i) h

theorem NoNaN_eraseIdx {l : List F64} (h : NoNaN l) (i : Nat) : NoNaN (l.eraseIdx i) :=
  fun x hx => h x ((List.eraseIdx_sublist l i).subset hx)

/-- Inserting `p` between the elements below it and the elements above it
keeps the list strictly ascending. -/
theorem StrictAsc_insert {l : List F64} (h : StrictAsc l) (i : Nat) (p : F64)
    (hlo : ∀ v ∈ l.take i, F64.lt v p = true) (hhi : ∀ v ∈ l.drop i, F64.lt p v = true) :
    StrictAsc (l.take i ++ p :: l.drop i) := by
  unfold StrictAsc at *
  rw [List.pairwise_append]
  refine ⟨List.Pairwise.sublist (List.take_sublist i l) h, ?_, ?_⟩
  · rw [List.pairwise_cons]
    exact ⟨hhi, List.Pairwise.sublist (List.drop_sublist i l) h⟩
  · intro a ha b hb
    rcases List.mem_cons.mp hb with rfl | hb
    · exact hlo a ha
    · exact F64.lt_chain (hlo a ha) (hhi b hb)

/-- When the search does not find `p`, every element from the returned index
on is above `p`. -/
theorem above_of_not_found (l : List F64) (p : F64) (hs : StrictAsc l) (hn : NoNaN l)
    (hp : p ≠ F64.nan)
    (hnf : ∀ v, l[SearchFloat64s l p]? = some v → F64.eq v p = false) :
    ∀ v ∈ l.drop (SearchFloat64s l p), F64.lt p v = true := by
  obtain ⟨hle, _, hhi⟩ := SearchFloat64s_spec l p hs hn hp
  intro v hv
  have hvn : v ≠ F64.nan := hn v ((List.drop_sublist _ l).subset hv)
  rcases F64.trichotomy hvn hp with h | h | h
  · rw [hhi v hv] at h; exact absurd h (by simp)
  · exfalso
    subst h
    obtain ⟨k, hk, hkv⟩ := List.getElem_of_mem hv
    rw [List.length_drop] at hk
    rw [List.getElem_drop] at hkv
    have hlt : SearchFloat64s l v < l.length := by omega
    have h0 := hnf _ (List.getElem?_eq_getElem hlt)
    rcases Nat.eq_zero_or_pos k with hk0 | hk0
    · subst hk0
      simp only [Nat.add_zero] at hkv
      rw [hkv] at h0
      have : F64.eq v v = true := F64.eq_iff.mpr ⟨rfl, hvn⟩
      rw [this] at h0; exact absurd h0 (by simp)
    · have h1 : F64.lt l[SearchFloat64s l v] l[SearchFloat64s l v + k] = true :=
        List.pairwise_iff_getElem.mp hs _ _ hlt (by omega) (by omega)
      rw [hkv] at h1
      have h2 := hhi (l[SearchFloat64s l v]) (by
        rw [List.drop_eq_getElem_cons hlt]; exact List.mem_cons_self _ _)
      rw [h1] at h2; exact absurd h2 (by simp)
  · exact h

/-- A strictly ascending list that holds a value equal (in Go's sense) to
some `p` holds no NaN. -/
theorem NoNaN_of_sorted_mem (l : List F64) (p v : F64) (i : Nat) (hs : StrictAsc l)
    (hi : l[i]? = some v) (hvp : F64.eq v p = true) : NoNaN l := by
  obtain ⟨hil, hiv⟩ := List.getElem?_eq_some_iff.mp hi
  intro x hx
  obtain ⟨j, hj, rfl⟩ := List.getElem_of_mem hx
  rcases Nat.lt_trichotomy j i with h | h | h
  · exact F64.lt_ne_nan_left (List.pairwise_iff_getElem.mp hs j i hj hil h)
  · subst h
    rw [hiv]
    exact (F64.eq_iff.mp hvp).2
  · exact F64.lt_ne_nan_right (List.pairwise_iff_getElem.mp hs i j hil hj h)

/-- On a strictly ascending list the search returns the index of the price it
is asked for, when the list holds it. -/
theorem SearchFloat64s_eq_of_mem (l : List F64) (p v : F64) (i : Nat) (hs : StrictAsc l)
    (hi : l[i]? = some v) (hvp : F64.eq v p = true) : SearchFloat64s l p = i := by
  have hn := NoNaN_of_sorted_mem l p v i hs hi hvp
  obtain ⟨hil, hiv⟩ := List.getElem?_eq_some_iff.mp hi
  obtain ⟨hv, hvn⟩ := F64.eq_iff.mp hvp
  subst hv
  obtain ⟨hle, hlo, hhi⟩ := SearchFloat64s_spec l v hs hn hvn
  rcases Nat.lt_trichotomy (SearchFloat64s l v) i with h | h | h
  · exfalso
    have h1 : F64.lt l[SearchFloat64s l v] l[i] = true :=
      List.pairwise_iff_getElem.mp hs _ _ (by omega) hil h
    have h2 := hhi (l[SearchFloat64s l v]) (by
      rw [List.drop_eq_getElem_cons (by omega : SearchFloat64s l v < l.length)]
      exact List.mem_cons_self _ _)
    rw [hiv, h2] at h1
    exact absurd h1 (by simp)
  · exact h
  · exfalso
    have h1 := hlo (l[i]) (by
      rw [List.mem_take_iff_getElem]
      exact ⟨i, by rw [Nat.lt_min]; exact ⟨h, hil⟩, rfl⟩)
    rw [hiv, F64.lt_self] at h1
    exact absurd h1 (by simp)

/-- One completed call of `UpdateOb` with a price other than NaN keeps the
price slice strictly ascending and free of NaN, and the two slices parallel. -/
theorem UpdateOb_sorted_step (price size : String) (ps ss : Slice) (p : F64)
    (hps : ps.WF) (hss : ss.WF) (hlen : ps.len = ss.len)
    (hsorted : StrictAsc ps.data) (hnn : NoNaN ps.data)
    (hp : ParseFloat price = .ok p) (hpn : p ≠ F64.nan)
    (r : Side) (hr : UpdateOb price size ps ss = .ok r) :
    StrictAsc r.1.data ∧ NoNaN r.1.data ∧ r.1.WF ∧ r.2.WF ∧ r.1.len = r.2.len := by
  obtain ⟨s, hs⟩ : ∃ s, ParseFloat size = .ok s := by
    cases hsz : ParseFloat size with
    | ok s => exact ⟨s, rfl⟩
    | error e =>
      simp only [UpdateOb, hp, hsz, bind, Except.bind] at hr
      exact absurd hr (by simp)
  have insertCase : (∀ v, ps.data[SearchFloat64s ps.data p]? = some v → F64.eq v p = false) →
      StrictAsc r.1.data ∧ NoNaN r.1.data ∧ r.1.WF ∧ r.2.WF ∧ r.1.len = r.2.len := by
    intro hnf
    by_cases hroom : SearchFloat64s ps.data p + 1 ≤ ps.cap ∧ SearchFloat64s ps.data p + 1 ≤ ss.cap
    · obtain ⟨r1, hr1, hd1, _, hw1, hw2, hl⟩ :=
        UpdateOb_insert price size ps ss p s hps hss hlen hp hs hnf hroom.1 hroom.2
      rw [hr1] at hr
      injection hr with hr
      subst hr
      obtain ⟨_, hlo, _⟩ := SearchFloat64s_spec ps.data p hsorted hnn hpn
      have hhi := above_of_not_found ps.data p hsorted hnn hpn hnf
      refine ⟨?_, ?_, hw1, hw2, hl⟩
      · rw [hd1]; exact StrictAsc_insert hsorted _ p hlo hhi
      · rw [hd1]
        intro x hx
        rcases List.mem_append.mp hx with hx | hx
        · exact hnn x ((List.take_sublist _ _).subset hx)
        · rcases List.mem_cons.mp hx with rfl | hx
          · exact hpn
          · exact hnn x ((List.drop_sublist _ _).subset hx)
    · rw [UpdateOb_insert_panic price size ps ss p s hps hp hs hnf hroom] at hr
      exact absurd hr (by simp)
  cases hget : ps.data[SearchFloat64s ps.data p]? with
  | none => exact insertCase (fun v hv => by rw [hget] at hv; exact absurd hv (by simp))
  | some v =>
    cases hvp : F64.eq v p with
    | false =>
      exact insertCase (fun w hw => by
        rw [hget] at hw; injection hw with hw; subst hw; exact hvp)
    | true =>
      cases hz : F64.eq s F64.zero with
      | true =>
        obtain ⟨r1, hr1, hd1, _, hw1, hw2, hl⟩ :=
          UpdateOb_delete price size ps ss p s v hps hss hlen hp hs hget hvp hz
        rw [hr1] at hr
        injection hr with hr
        subst hr
        exact ⟨by rw [hd1]; exact StrictAsc_eraseIdx hsorted _,
          by rw [hd1]; exact NoNaN_eraseIdx hnn _,
          hw1, hw2, hl⟩
      | false =>
        obtain ⟨r1, hr1, he, _, hw2, hl⟩ :=
          UpdateOb_replace price size ps ss p s v hps hss hlen hp hs hget hvp hz
        rw [hr1] at hr
        injection hr with hr
        subst hr
        rw [he]
        exact ⟨hsorted, hnn, hps, hw2, by rw [← hl, he]⟩

/-! ## Lemmas: best index of a sorted slice -/

/-- A strictly ascending list with at least two elements holds no NaN. -/
theorem NoNaN_of_sorted_two (l : List F64) (hs : StrictAsc l) (h2 : 2 ≤ l.length) : NoNaN l := by
  intro x hx
  obtain ⟨j, hj, rfl⟩ := List.getElem_of_mem hx
  rcases Nat.eq_zero_or_pos j with h0 | h0
  · subst h0
    exact F64.lt_ne_nan_left (List.pairwise_iff_getElem.mp hs 0 1 hj (by omega) (by omega))
  · exact F64.lt_ne_nan_right (List.pairwise_iff_getElem.mp hs 0 j (by omega) hj h0)

theorem floats.maxIdxLoop_sorted (l : List F64) (hs : StrictAsc l) (hn : NoNaN l)
    (hne : l ≠ []) (i : Nat) (max : F64) (ind : Nat)
    (hmax : max = F64.nan ∨ ∀ x ∈ l, F64.lt max x = true) :
    floats.maxIdxLoop l i max ind = i + l.length - 1 := by
  induction l generalizing i max ind with
  | nil => exact absurd rfl hne
  | cons v rest ih =>
    have hv : F64.isNaN v = false := by
      have := hn v (List.mem_cons_self _ _)
      cases v <;> simp_all [F64.isNaN]
    have hcond : (F64.gt v max || F64.isNaN max) = true := by
      rcases hmax with h | h
      · subst h; simp [F64.isNaN]
      · simp [F64.gt, h v (List.mem_cons_self _ _)]
    simp only [floats.maxIdxLoop, hv, hcond, Bool.false_eq_true, if_false, if_true]
    cases hrest : rest with
    | nil => simp [floats.maxIdxLoop]
    | cons w rest2 =>
      rw [← hrest]
      have hs2 : StrictAsc rest := (List.pairwise_cons.mp hs).2
      have hn2 : NoNaN rest := fun x hx => hn x (List.mem_cons_of_mem _ hx)
      rw [ih hs2 hn2 (by rw [hrest]; simp) (i + 1) v i (Or.inr (List.pairwise_cons.mp hs).1)]
      simp only [List.length_cons]
      have : 0 < rest.length := by rw [hrest]; simp
      omega

theorem floats.minIdxLoop_keep (l : List F64) (i : Nat) (min : F64) (ind : Nat)
    (hmin : min ≠ F64.nan) (hlow : ∀ x ∈ l, F64.lt x min = false) :
    floats.minIdxLoop l i min ind = ind := by
  induction l generalizing i with
  | nil => rfl
  | cons v rest ih =>
    have hm : F64.isNaN min = false := by cases min <;> simp_all [F64.isNaN]
    have hv := hlow v (List.mem_cons_self _ _)
    simp only [floats.minIdxLoop, hv, hm, Bool.or_self, Bool.false_eq_true, if_false]
    have := ih (i + 1) (fun x hx => hlow x (List.mem_cons_of_mem _ hx))
    split
    · exact this
    · exact this

/-- On a non-empty strictly ascending slice `floats.MaxIdx` is the last index. -/
theorem floats.MaxIdx_sorted (l : List F64) (hs : StrictAsc l) (hne : l ≠ []) :
    floats.MaxIdx l = .ok (l.length - 1) := by
  have hlen : l.length ≠ 0 := fun h => hne (List.length_eq_zero.mp h)
  simp only [floats.MaxIdx, hlen, if_false]
  congr 1
  rcases Nat.lt_or_ge l.length 2 with h | h
  · match l, hne, h with
    | [v], _, _ =>
      cases v <;> simp [floats.maxIdxLoop, F64.isNaN, F64.gt, F64.lt]
  · have := floats.maxIdxLoop_sorted l hs (NoNaN_of_sorted_two l hs h) hne 0 F64.nan 0 (Or.inl rfl)
    rw [this]; omega

/-- On a non-empty strictly ascending slice `floats.MinIdx` is index 0. -/
theorem floats.MinIdx_sorted (l : List F64) (hs : StrictAsc l) (hne : l ≠ []) :
    floats.MinIdx l = .ok 0 := by
  have hlen : l.length ≠ 0 := fun h => hne (List.length_eq_zero.mp h)
  simp only [floats.MinIdx, hlen, if_false]
  congr 1
  match l, hne, hs with
  | v :: rest, _, hs =>
    have hlt := (List.pairwise_cons.mp hs).1
    cases hv : F64.isNaN v with
    | true =>
      have hvn : v = F64.nan := by cases v <;> simp_all [F64.isNaN]
      subst hvn
      cases rest with
      | nil => simp [floats.minIdxLoop, hv]
      | cons w rest2 =>
        have := hlt w (List.mem_cons_self _ _)
        simp [F64.lt] at this
    | false =>
      have hvn : v ≠ F64.nan := by cases v <;> simp_all [F64.isNaN]
      simp only [floats.minIdxLoop, hv, Bool.false_eq_true, if_false, F64.isNaN, Bool.or_true,
        if_true]
      exact floats.minIdxLoop_keep rest 1 v 0 hvn (fun x hx => F64.lt_flip (hlt x hx))

/-! ## Claims about UpdateOb -/

/-- C1 (amended): sortedness is an invariant of `UpdateOb` for prices other
than NaN.  For a strictly ascending, NaN-free price slice with a size slice of
the same length, every finite sequence of `UpdateOb` calls whose prices do not
parse to NaN and that runs to completion leaves the price slice strictly
ascending, NaN-free and without duplicate prices, and the two slices of the
same length. -/
theorem C1_UpdateObSeq_keeps_sorted (us : List (String × String)) (ps ss : Slice)
    (hps : ps.WF) (hss : ss.WF) (hlen : ps.len = ss.len)
    (hsorted : StrictAsc ps.data) (hnn : NoNaN ps.data)
    (hus : ∀ u ∈ us, ParseFloat u.1 ≠ .ok F64.nan)
    (r : Side) (hr : UpdateObSeq us (ps, ss) = .ok r) :
    StrictAsc r.1.data ∧ NoNaN r.1.data ∧ r.1.data.Nodup ∧ r.1.len = r.2.len := by
  induction us generalizing ps ss with
  | nil =>
    simp only [UpdateObSeq, pure, Except.pure] at hr
    injection hr with hr
    subst hr
    refine ⟨hsorted, hnn, ?_, hlen⟩
    exact List.Pairwise.imp (fun {a b} hab hEq => by
      subst hEq; rw [F64.lt_self] at hab; exact absurd hab (by simp)) hsorted
  | cons u us ih =>
    simp only [UpdateObSeq, bind, Except.bind] at hr
    cases hstep : UpdateOb u.1 u.2 ps ss with
    | error e => rw [hstep] at hr; exact absurd hr (by simp)
    | ok mid =>
      rw [hstep] at hr
      simp only [] at hr
      cases hpu : ParseFloat u.1 with
      | error e =>
        simp only [UpdateOb, hpu, bind, Except.bind] at hstep
        exact absurd hstep (by simp)
      | ok p =>
        have hpn : p ≠ F64.nan := by
          intro h
          subst h
          exact hus u (List.mem_cons_self _ _) hpu
        obtain ⟨h1, h2, h3, h4, h5⟩ :=
          UpdateOb_sorted_step u.1 u.2 ps ss p hps hss hlen hsorted hnn hpu hpn mid hstep
        exact ih mid.1 mid.2 h3 h4 h5 h1 h2
          (fun v hv => hus v (List.mem_cons_of_mem _ hv)) hr

/-- C1, an instance: deleting 100 and inserting 97 in the side
`[(98,3),(99,2),(100,1)]`. -/
theorem C1_UpdateObSeq_keeps_sorted_witness :
    UpdateObSeq [("100", "0"), ("97", "5")]
        (Slice.ofList [F64.fin 98, F64.fin 99, F64.fin 100],
         Slice.ofList [F64.fin 3, F64.fin 2, F64.fin 1])
      = .ok (⟨[F64.fin 97, F64.fin 98, F64.fin 99], 3⟩, ⟨[F64.fin 5, F64.fin 3, F64.fin 2], 3⟩) ∧
    StrictAsc [F64.fin 97, F64.fin 98, F64.fin 99] ∧
    NoNaN [F64.fin 97, F64.fin 98, F64.fin 99] ∧
    [F64.fin 97, F64.fin 98, F64.fin 99].Nodup ∧ 3 = 3 :=
  ⟨by decide,
   C1_UpdateObSeq_keeps_sorted [("100", "0"), ("97", "5")]
    (Slice.ofList [F64.fin 98, F64.fin 99, F64.fin 100])
    (Slice.ofList [F64.fin 3, F64.fin 2, F64.fin 1])
    (by decide) (by decide) (by decide) (by decide) (by decide) (by decide)
    (⟨[F64.fin 97, F64.fin 98, F64.fin 99], 3⟩, ⟨[F64.fin 5, F64.fin 3, F64.fin 2], 3⟩)
    (by decide)⟩

/-- C1 as stated fails for the parsable price "NaN": on the strictly ascending
side `[(98,3)]`, held in slices of capacity 2, `UpdateOb` appends the level
`(NaN,1)`, and `[98, NaN]` is not strictly ascending. -/
theorem C1_counterexample_NaN_price :
    StrictAsc (Slice.data ⟨[F64.fin 98, F64.fin 99], 1⟩) ∧
    Slice.len ⟨[F64.fin 98, F64.fin 99], 1⟩ = Slice.len ⟨[F64.fin 3, F64.fin 2], 1⟩ ∧
    ParseFloat "NaN" = .ok F64.nan ∧ ParseFloat "1" = .ok (F64.fin 1) ∧
    UpdateOb "NaN" "1" ⟨[F64.fin 98, F64.fin 99], 1⟩ ⟨[F64.fin 3, F64.fin 2], 1⟩
      = .ok (⟨[F64.fin 98, F64.nan], 2⟩, ⟨[F64.fin 3, F64.fin 1], 2⟩) ∧
    ¬ StrictAsc (Slice.data ⟨[F64.fin 98, F64.nan], 2⟩) := by
  refine ⟨by decide, by decide, by decide, by decide, by decide, by decide⟩

/-- C2 (code defect): a zero-size level is stored.  On the side
`[(98,3),(99,2)]`, which holds no level of size 0 and not the price 97,
`UpdateOb("97", "0")` inserts the level `(97,0)` instead of leaving the side
as it was. -/
theorem C2_zero_size_level_is_stored :
    ∃ r, UpdateOb "97" "0" (Slice.ofList [F64.fin 98, F64.fin 99])
        (Slice.ofList [F64.fin 3, F64.fin 2]) = .ok r ∧
      r.1.data = [F64.fin 97, F64.fin 98, F64.fin 99] ∧
      r.2.data = [F64.fin 0, F64.fin 3, F64.fin 2] ∧
      F64.zero ∈ r.2.data ∧
      F64.zero ∉ (Slice.ofList [F64.fin 3, F64.fin 2]).data :=
  ⟨(⟨[F64.fin 97, F64.fin 98, F64.fin 99, F64.fin 0], 3⟩,
    ⟨[F64.fin 0, F64.fin 3, F64.fin 2, F64.fin 0], 3⟩),
   by decide, by decide, by decide, by decide, by decide⟩

/-- C5: update of an existing level.  On a strictly ascending side that holds
the price `p` at index `i`, `UpdateOb` returns; with a size equal to 0 the
result is the side without index `i`, in the price and in the size slice; with
another size the prices are unchanged and only the size at index `i` becomes `s`. -/
theorem C5_UpdateOb_existing_level (price size : String) (ps ss : Slice) (p s v : F64) (i : Nat)
    (hps : ps.WF) (hss : ss.WF) (hlen : ps.len = ss.len)
    (hsorted : StrictAsc ps.data)
    (hp : ParseFloat price = .ok p) (hs : ParseFloat size = .ok s)
    (hi : ps.data[i]? = some v) (hvp : F64.eq v p = true) :
    ∃ r, UpdateOb price size ps ss = .ok r ∧
      (F64.eq s F64.zero = true →
        r.1.data = ps.data.eraseIdx i ∧ r.2.data = ss.data.eraseIdx i) ∧
      (F64.eq s F64.zero = false →
        r.1.data = ps.data ∧ r.2.data = ss.data.set i s) := by
  have hidx := SearchFloat64s_eq_of_mem ps.data p v i hsorted hi hvp
  rw [← hidx] at hi
  cases hz : F64.eq s F64.zero with
  | true =>
    obtain ⟨r, hr, hd1, hd2, _⟩ :=
      UpdateOb_delete price size ps ss p s v hps hss hlen hp hs hi hvp hz
    refine ⟨r, hr, fun _ => ?_, fun h => absurd h (by simp)⟩
    rw [← hidx]; exact ⟨hd1, hd2⟩
  | false =>
    obtain ⟨r, hr, he, hd2, _⟩ :=
      UpdateOb_replace price size ps ss p s v hps hss hlen hp hs hi hvp hz
    refine ⟨r, hr, fun h => absurd h (by simp), fun _ => ?_⟩
    rw [← hidx, he]; exact ⟨rfl, hd2⟩

/-- C5, an instance: applying `(100,0)` to `[(98,3),(99,2),(100,1)]` leaves
`[(98,3),(99,2)]`. -/
theorem C5_UpdateOb_existing_level_witness :
    ∃ r, UpdateOb "100" "0" (Slice.ofList [F64.fin 98, F64.fin 99, F64.fin 100])
        (Slice.ofList [F64.fin 3, F64.fin 2, F64.fin 1]) = .ok r ∧
      (F64.eq (F64.fin 0) F64.zero = true →
        r.1.data = [F64.fin 98, F64.fin 99] ∧ r.2.data = [F64.fin 3, F64.fin 2]) ∧
      (F64.eq (F64.fin 0) F64.zero = false →
        r.1.data = [F64.fin 98, F64.fin 99, F64.fin 100] ∧
        r.2.data = [F64.fin 3, F64.fin 2, F64.fin 0]) :=
  C5_UpdateOb_existing_level "100" "0" (Slice.ofList [F64.fin 98, F64.fin 99, F64.fin 100])
    (Slice.ofList [F64.fin 3, F64.fin 2, F64.fin 1]) (F64.fin 100) (F64.fin 0) (F64.fin 100) 2
    (by decide) (by decide) (by decide) (by decide) (by decide) (by decide) (by decide)
    (by decide)

/-- C6 (code defect): inserting a new level above every stored price into
slices without spare capacity does not yield the extended side.  On the side
`[(98,3),(99,2)]`, not holding the price 100 and held in slices of length and
capacity 2, `UpdateOb("100", "1")` panics at the slice expression `[:idx+1]`.
These are the bid slices after a Coinbase snapshot with three bids, so the
feed loop panics on the update `["buy","100","1"]` that follows it. -/
theorem C6_insert_at_end_of_full_slice_panics :
    StrictAsc (Slice.ofList [F64.fin 98, F64.fin 99]).data ∧
    F64.fin 100 ∉ (Slice.ofList [F64.fin 98, F64.fin 99]).data ∧
    SearchFloat64s (Slice.ofList [F64.fin 98, F64.fin 99]).data (F64.fin 100) = 2 ∧
    (Slice.ofList [F64.fin 98, F64.fin 99]).cap = 2 ∧
    UpdateOb "100" "1" (Slice.ofList [F64.fin 98, F64.fin 99])
      (Slice.ofList [F64.fin 3, F64.fin 2]) = .error .panic ∧
    coinbase.listenLoop
      [⟨"snapshot", "BTC-USD", [("100", "1"), ("99", "2"), ("98", "3")], [("101", "1")], []⟩,
       ⟨"l2update", "BTC-USD", [], [], [("buy", "100", "1")]⟩]
      OrderBook.empty = .error .panic := by
  refine ⟨by decide, by decide, by decide, by decide, by decide, by decide⟩

/-! ## Claims about the snapshot handlers -/

/-- C3 (code defect): the Coinbase snapshot load drops a level.  For the
payload bids `[(100,1),(99,2),(98,3)]` on an empty book, `HandleObSnapshotMsg`
stores `[(98,3),(99,2)]`: the loop `for i := len(msg.Bids) - 1; i > 0; i--`
stops before index 0, so the first bid of the payload, the best one, is never
stored, and the stored bids are not the reverse of the payload. -/
theorem C3_coinbase_snapshot_drops_first_bid :
    ∃ ob, coinbase.HandleObSnapshotMsg
        ⟨"snapshot", "BTC-USD", [("100", "1"), ("99", "2"), ("98", "3")], [], []⟩
        OrderBook.empty = .ok ob ∧
      ob.BidPrices.data = [F64.fin 98, F64.fin 99] ∧
      ob.BidSizes.data = [F64.fin 3, F64.fin 2] ∧
      ob.BidPrices.data ≠ [F64.fin 98, F64.fin 99, F64.fin 100] :=
  ⟨⟨⟨[F64.fin 98, F64.fin 99], 2⟩, ⟨[F64.fin 3, F64.fin 2], 2⟩, Slice.nil, Slice.nil⟩,
   by decide, by decide, by decide, by decide⟩

/-- C4 (code defect): the Kraken snapshot load drops a level.  For the
well-formed message `[0, {"as": [["101","1","t"]], "bs": [["100","1","t"],
["99","2","t"], ["98","3","t"]]}, "book-25", "XBT/USD"]`,
`HandleObSnapshotMessage` returns a book whose bids are `[(98,3),(99,2)]`: the
loop `for i := len(obSnapshotMsg.bs) - 1; i > 0; i--` never reaches index 0. -/
theorem C4_kraken_snapshot_drops_first_bid :
    ∃ ob, kraken.HandleObSnapshotMessage (some (JSON.array
        [JSON.number (F64.fin 0),
         JSON.object
          [("as", JSON.array [JSON.array [JSON.string "101", JSON.string "1", JSON.string "t"]]),
           ("bs", JSON.array
            [JSON.array [JSON.string "100", JSON.string "1", JSON.string "t"],
             JSON.array [JSON.string "99", JSON.string "2", JSON.string "t"],
             JSON.array [JSON.string "98", JSON.string "3", JSON.string "t"]])],
         JSON.string "book-25", JSON.string "XBT/USD"])) = .ok (some ob) ∧
      ob.BidPrices.data = [F64.fin 98, F64.fin 99] ∧
      ob.BidSizes.data = [F64.fin 3, F64.fin 2] ∧
      ob.AskPrices.data = [F64.fin 101] ∧
      ob.AskSizes.data = [F64.fin 1] ∧
      ob.BidPrices.data ≠ [F64.fin 98, F64.fin 99, F64.fin 100] :=
  ⟨⟨⟨[F64.fin 98, F64.fin 99], 2⟩, ⟨[F64.fin 3, F64.fin 2], 2⟩,
    ⟨[F64.fin 101], 1⟩, ⟨[F64.fin 1], 1⟩⟩,
   by decide, by decide, by decide, by decide, by decide, by decide⟩

/-! ## Claims about the emission step -/

/-- C7 (code defect): with bids present and no asks the emission step fails.
The guard of the step tests `len(ob.BidPrices) > 0` only; on the book with the
single bid `(100,1)` and empty ask slices, `floats.MinIdx(ob.AskPrices)`
panics, in the Coinbase loop and in the Kraken loop, where the claim expects
no quote and no failure.  With empty bids no quote is produced. -/
theorem C7_emission_panics_on_empty_asks :
    coinbase.emitBestOrders
      ⟨Slice.ofList [F64.fin 100], Slice.ofList [F64.fin 1], Slice.nil, Slice.nil⟩
      = .error .panic ∧
    kraken.emitBestOrders true
      ⟨Slice.ofList [F64.fin 100], Slice.ofList [F64.fin 1], Slice.nil, Slice.nil⟩
      = .error .panic ∧
    coinbase.emitBestOrders
      ⟨Slice.nil, Slice.nil, Slice.ofList [F64.fin 101], Slice.ofList [F64.fin 1]⟩
      = .ok none := by
  refine ⟨by decide, by decide, by decide⟩

/-- C8: with both sides populated the emitted quote is the top of the book.
For a book whose bid and ask price slices are non-empty and strictly
ascending, with size slices of the same lengths, the emission step of the
Coinbase loop and of the Kraken loop (after an update) sends
`((bp, bs), (ap, asz))` where `bp`, `bs` are the last bid price and size,
`ap`, `asz` the first ask price and size, `bp` is the maximum of the bid
prices and `ap` the minimum of the ask prices. -/
theorem C8_emitted_quote_is_top_of_book (ob : OrderBook)
    (hbp : ob.BidPrices.WF) (hbs : ob.BidSizes.WF) (hap : ob.AskPrices.WF) (has : ob.AskSizes.WF)
    (hb : ob.BidPrices.len = ob.BidSizes.len) (ha : ob.AskPrices.len = ob.AskSizes.len)
    (hbne : 0 < ob.BidPrices.len) (hane : 0 < ob.AskPrices.len)
    (hbsorted : StrictAsc ob.BidPrices.data) (hasorted : StrictAsc ob.AskPrices.data) :
    ∃ bp bs ap asz,
      coinbase.emitBestOrders ob = .ok (some ((bp, bs), (ap, asz))) ∧
      kraken.emitBestOrders true ob = .ok (some ((bp, bs), (ap, asz))) ∧
      ob.BidPrices.data[ob.BidPrices.len - 1]? = some bp ∧
      ob.BidSizes.data[ob.BidPrices.len - 1]? = some bs ∧
      ob.AskPrices.data[0]? = some ap ∧
      ob.AskSizes.data[0]? = some asz ∧
      (∀ x ∈ ob.BidPrices.data, x = bp ∨ F64.lt x bp = true) ∧
      (∀ x ∈ ob.AskPrices.data, x = ap ∨ F64.lt ap x = true) := by
  have lbp := Slice.data_length _ hbp
  have lbs := Slice.data_length _ hbs
  have lap := Slice.data_length _ hap
  have las := Slice.data_length _ has
  have nbp : ob.BidPrices.data ≠ [] := fun h => by rw [h] at lbp; simp at lbp; omega
  have nap : ob.AskPrices.data ≠ [] := fun h => by rw [h] at lap; simp at lap; omega
  have hmax := floats.MaxIdx_sorted _ hbsorted nbp
  have hmin := floats.MinIdx_sorted _ hasorted nap
  rw [lbp] at hmax
  have i1 : ob.BidPrices.len - 1 < ob.BidPrices.data.length := by omega
  have i2 : ob.BidPrices.len - 1 < ob.BidSizes.data.length := by omega
  have i3 : 0 < ob.AskPrices.data.length := by omega
  have i4 : 0 < ob.AskSizes.data.length := by omega
  have g1 := List.getElem?_eq_getElem i1
  have g2 := List.getElem?_eq_getElem i2
  have g3 := List.getElem?_eq_getElem i3
  have g4 := List.getElem?_eq_getElem i4
  have e1 := Slice.index_eq _ _ _ (by omega) g1
  have e2 := Slice.index_eq _ _ _ (by omega) g2
  have e3 := Slice.index_eq _ _ _ (by omega) g3
  have e4 := Slice.index_eq _ _ _ (by omega) g4
  have hq : bestOrdersOf ob = .ok
      ((ob.BidPrices.data[ob.BidPrices.len - 1], ob.BidSizes.data[ob.BidPrices.len - 1]),
       (ob.AskPrices.data[0], ob.AskSizes.data[0])) := by
    simp only [bestOrdersOf, hmax, hmin, e1, e2, e3, e4, bind, Except.bind, pure, Except.pure]
  refine ⟨_, _, _, _, ?_, ?_, g1, g2, g3, g4, ?_, ?_⟩
  · simp only [coinbase.emitBestOrders, hq, hbne, gt_iff_lt, if_true, bind, Except.bind, pure,
      Except.pure]
  · simp only [kraken.emitBestOrders, hq, hbne, gt_iff_lt, decide_True, Bool.and_self, if_true,
      bind, Except.bind, pure, Except.pure]
  · intro x hx
    obtain ⟨j, hj, rfl⟩ := List.getElem_of_mem hx
    rcases Nat.lt_or_ge j (ob.BidPrices.len - 1) with h | h
    · exact Or.inr (List.pairwise_iff_getElem.mp hbsorted j _ hj i1 h)
    · left
      have : j = ob.BidPrices.len - 1 := by omega
      subst this; rfl
  · intro x hx
    obtain ⟨j, hj, rfl⟩ := List.getElem_of_mem hx
    rcases Nat.eq_zero_or_pos j with h | h
    · left; subst h; rfl
    · exact Or.inr (List.pairwise_iff_getElem.mp hasorted 0 j i3 hj h)

/-- C8, an instance: bids `[(98,3),(99,2),(100,1)]` and asks `[(101,4),(102,5)]`
give the quote bid 100 size 1, ask 101 size 4. -/
theorem C8_emitted_quote_is_top_of_book_witness :
    ∃ bp bs ap asz,
      coinbase.emitBestOrders
        ⟨Slice.ofList [F64.fin 98, F64.fin 99, F64.fin 100],
         Slice.ofList [F64.fin 3, F64.fin 2, F64.fin 1],
         Slice.ofList [F64.fin 101, F64.fin 102], Slice.ofList [F64.fin 4, F64.fin 5]⟩
        = .ok (some ((bp, bs), (ap, asz))) ∧
      kraken.emitBestOrders true
        ⟨Slice.ofList [F64.fin 98, F64.fin 99, F64.fin 100],
         Slice.ofList [F64.fin 3, F64.fin 2, F64.fin 1],
         Slice.ofList [F64.fin 101, F64.fin 102], Slice.ofList [F64.fin 4, F64.fin 5]⟩
        = .ok (some ((bp, bs), (ap, asz))) ∧
      [F64.fin 98, F64.fin 99, F64.fin 100][2]? = some bp ∧
      [F64.fin 3, F64.fin 2, F64.fin 1][2]? = some bs ∧
      [F64.fin 101, F64.fin 102][0]? = some ap ∧
      [F64.fin 4, F64.fin 5][0]? = some asz ∧
      (∀ x ∈ [F64.fin 98, F64.fin 99, F64.fin 100], x = bp ∨ F64.lt x bp = true) ∧
      (∀ x ∈ [F64.fin 101, F64.fin 102], x = ap ∨ F64.lt ap x = true) :=
  C8_emitted_quote_is_top_of_book
    ⟨Slice.ofList [F64.fin 98, F64.fin 99, F64.fin 100],
     Slice.ofList [F64.fin 3, F64.fin 2, F64.fin 1],
     Slice.ofList [F64.fin 101, F64.fin 102], Slice.ofList [F64.fin 4, F64.fin 5]⟩
    (by decide) (by decide) (by decide) (by decide) (by decide) (by decide) (by decide)
    (by decide) (by decide) (by decide)

/-- C9 (code defect): the scripted Coinbase session ends without the expected
quote.  From the empty book, the messages `subscriptions`, `snapshot` with
bids `[["100","1"],["99","2"]]` and asks `[["101","1"]]`, and `l2update` with
changes `[["buy","99","0"]]` are handled in order.  The snapshot stores the bid
`(99,2)` only, so the loop sends the single quote bid 99 size 2, ask 101 size
1; the update deletes that bid, the bid side is empty, and the emission step
on the final book produces no quote, not bid 100 size 1. -/
theorem C9_coinbase_session_ends_without_quote :
    coinbase.listenLoop
      [⟨"subscriptions", "", [], [], []⟩,
       ⟨"snapshot", "BTC-USD", [("100", "1"), ("99", "2")], [("101", "1")], []⟩,
       ⟨"l2update", "BTC-USD", [], [], [("buy", "99", "0")]⟩]
      OrderBook.empty
      = .ok (⟨⟨[F64.fin 99], 0⟩, ⟨[F64.fin 2], 0⟩, ⟨[F64.fin 101], 1⟩, ⟨[F64.fin 1], 1⟩⟩,
             [((F64.fin 99, F64.fin 2), (F64.fin 101, F64.fin 1))]) ∧
    Slice.data ⟨[F64.fin 99], 0⟩ = [] ∧
    coinbase.emitBestOrders
      ⟨⟨[F64.fin 99], 0⟩, ⟨[F64.fin 2], 0⟩, ⟨[F64.fin 101], 1⟩, ⟨[F64.fin 1], 1⟩⟩
      = .ok none := by
  refine ⟨by decide, by decide, by decide⟩

/-! ## Claims about the loop of main -/

/-- C10 as stated fails: the first iteration of the loop of `main` already
prints a pair of spread values.  After the single Coinbase quote bid 100 size
1, ask 101 size 1, with no quote from Kraken yet, one pair has been printed:
`(101 - 0) / 101 = 1` and `(0 - 100) / 0 = -Inf`, computed with the zero
quote in place of the missing Kraken quote. -/
theorem C10_counterexample_first_quote_prints :
    (main.run [main.Recv.coinbase ((F64.fin 100, F64.fin 1), (F64.fin 101, F64.fin 1))]
      main.State.init).2.length = 1 ∧
    (main.run [main.Recv.coinbase ((F64.fin 100, F64.fin 1), (F64.fin 101, F64.fin 1))]
      main.State.init).1.krknBestOrders = main.zeroQuote ∧
    (main.run [main.Recv.coinbase ((F64.fin 100, F64.fin 1), (F64.fin 101, F64.fin 1))]
      main.State.init).2 = [(F64.fin 1, F64.negInf)] := by
  refine ⟨by decide, by decide, ?_⟩
  simp [main.run, main.step, main.spreads, main.State.init, main.zeroQuote, F64.zero, F64.sub,
    F64.div]

/-- C10 (amended): the loop of `main` has no notion of a source without a
quote.  Both variables start as the zero quote, every iteration prints exactly
one pair of spread values, computed from the two variables after the receive,
and so any sequence of received quotes prints as many pairs as it has quotes,
whether or not both sources have delivered. -/
theorem C10_main_prints_on_every_receive :
    main.State.init.cbseBestOrders = main.zeroQuote ∧
    main.State.init.krknBestOrders = main.zeroQuote ∧
    (∀ (st : main.State) (r : main.Recv),
      (main.step st r).2 = [main.spreads (main.step st r).1]) ∧
    (∀ (rs : List main.Recv) (st : main.State), (main.run rs st).2.length = rs.length) := by
  refine ⟨rfl, rfl, fun st r => rfl, ?_⟩
  intro rs
  induction rs with
  | nil => intro st; rfl
  | cons r rs ih =>
    intro st
    simp only [main.run, List.length_append, List.length_cons, ih]
    simp only [main.step, List.length_singleton]
    omega

/-- C11: a step of the loop of `main` on a quote from one source stores it as
that source's last quote, leaves the other source's last quote as it was, and
prints exactly one pair, `(A.ask - B.bid) / A.ask` and `(B.ask - A.bid) / B.ask`,
from the two last quotes (A = Coinbase, B = Kraken).  On finite quotes with a
non-zero ask the printed number is the exact quotient. -/
theorem C11_main_step_replaces_one_source :
    (∀ (st : main.State) (q : Quote),
      (main.step st (main.Recv.coinbase q)).1.cbseBestOrders = q ∧
      (main.step st (main.Recv.coinbase q)).1.krknBestOrders = st.krknBestOrders ∧
      (main.step st (main.Recv.coinbase q)).2 =
        [(F64.div (F64.sub q.2.1 st.krknBestOrders.1.1) q.2.1,
          F64.div (F64.sub st.krknBestOrders.2.1 q.1.1) st.krknBestOrders.2.1)]) ∧
    (∀ (st : main.State) (q : Quote),
      (main.step st (main.Recv.kraken q)).1.krknBestOrders = q ∧
      (main.step st (main.Recv.kraken q)).1.cbseBestOrders = st.cbseBestOrders ∧
      (main.step st (main.Recv.kraken q)).2 =
        [(F64.div (F64.sub st.cbseBestOrders.2.1 q.1.1) st.cbseBestOrders.2.1,
          F64.div (F64.sub q.2.1 st.cbseBestOrders.1.1) q.2.1)]) ∧
    (∀ (a b : ℚ), a ≠ 0 →
      F64.div (F64.sub (F64.fin a) (F64.fin b)) (F64.fin a) = F64.fin ((a - b) / a)) := by
  refine ⟨fun st q => ⟨rfl, rfl, rfl⟩, fun st q => ⟨rfl, rfl, rfl⟩, ?_⟩
  intro a b ha
  simp [F64.sub, F64.div, ha]

/-- C11, an instance of the exact quotient: ask 101 against bid 99. -/
theorem C11_main_step_replaces_one_source_witness :
    (101 : ℚ) ≠ 0 ∧
    F64.div (F64.sub (F64.fin 101) (F64.fin 99)) (F64.fin 101) = F64.fin ((101 - 99) / 101) :=
  ⟨by norm_num, C11_main_step_replaces_one_source.2.2 101 99 (by norm_num)⟩

/-- C12 (code defect): a Coinbase control message makes the loop send a quote.
`HandleMessage` leaves the book unchanged on `heartbeat` and `subscriptions`,
but the emission step that follows it in the loop is guarded by
`len(ob.BidPrices) > 0` only: on the book with bid `(100,1)` and ask `(101,1)`
the iteration that handles a heartbeat, or a subscription response, sends the
quote bid 100 size 1, ask 101 size 1. -/
theorem C12_control_message_sends_quote :
    (∀ (ob : OrderBook) (pid : String) (bids asks : List (String × String))
        (changes : List (String × String × String)),
      coinbase.HandleMessage ⟨"heartbeat", pid, bids, asks, changes⟩ ob = .ok ob ∧
      coinbase.HandleMessage ⟨"subscriptions", pid, bids, asks, changes⟩ ob = .ok ob) ∧
    coinbase.listenStep ⟨"heartbeat", "BTC-USD", [], [], []⟩
      ⟨Slice.ofList [F64.fin 100], Slice.ofList [F64.fin 1],
       Slice.ofList [F64.fin 101], Slice.ofList [F64.fin 1]⟩
      = .ok (⟨Slice.ofList [F64.fin 100], Slice.ofList [F64.fin 1],
              Slice.ofList [F64.fin 101], Slice.ofList [F64.fin 1]⟩,
             some ((F64.fin 100, F64.fin 1), (F64.fin 101, F64.fin 1))) ∧
    coinbase.listenStep ⟨"subscriptions", "", [], [], []⟩
      ⟨Slice.ofList [F64.fin 100], Slice.ofList [F64.fin 1],
       Slice.ofList [F64.fin 101], Slice.ofList [F64.fin 1]⟩
      = .ok (⟨Slice.ofList [F64.fin 100], Slice.ofList [F64.fin 1],
              Slice.ofList [F64.fin 101], Slice.ofList [F64.fin 1]⟩,
             some ((F64.fin 100, F64.fin 1), (F64.fin 101, F64.fin 1))) := by
  refine ⟨fun ob pid bids asks changes => ⟨?_, ?_⟩, by decide, by decide⟩
  · simp [coinbase.HandleMessage, pure, Except.pure]
  · simp [coinbase.HandleMessage, pure, Except.pure]

/-- C16 (code defect): a terminated feed keeps contributing.  A receive on the
closed channel of a feed delivers the zero quote, and the loop of `main`
stores it like any other value: from the last quotes Coinbase bid 100 size 1,
ask 101 size 1 and Kraken bid 99 size 1, ask 102 size 1, a receive from the
closed Coinbase channel replaces the Coinbase quote by the zero quote and
prints `(0 - 99) / 0 = -Inf` and `(102 - 0) / 102 = 1`, values built from a
quote Coinbase never produced. -/
theorem C16_closed_feed_overwrites_last_quote :
    (∀ (st : main.State),
      (main.step st (main.Recv.coinbase main.zeroQuote)).1.cbseBestOrders = main.zeroQuote ∧
      (main.step st (main.Recv.kraken main.zeroQuote)).1.krknBestOrders = main.zeroQuote) ∧
    (main.step
      ⟨((F64.fin 100, F64.fin 1), (F64.fin 101, F64.fin 1)),
       ((F64.fin 99, F64.fin 1), (F64.fin 102, F64.fin 1))⟩
      (main.Recv.coinbase main.zeroQuote)).1.cbseBestOrders
      ≠ ((F64.fin 100, F64.fin 1), (F64.fin 101, F64.fin 1)) ∧
    (main.step
      ⟨((F64.fin 100, F64.fin 1), (F64.fin 101, F64.fin 1)),
       ((F64.fin 99, F64.fin 1), (F64.fin 102, F64.fin 1))⟩
      (main.Recv.coinbase main.zeroQuote)).2 = [(F64.negInf, F64.fin 1)] := by
  refine ⟨fun st => ⟨rfl, rfl⟩, by decide, ?_⟩
  simp [main.step, main.spreads, main.zeroQuote, F64.zero, F64.sub, F64.div]

/-! ## Claims about the l2update handler -/

/-- The step of the loop of `HandleL2UpdateMsg` is `routeChange`. -/
theorem l2Changes_cons (change : String × String × String)
    (rest : List (String × String × String)) (ob : OrderBook) :
    coinbase.l2Changes (change :: rest) ob =
      (coinbase.routeChange ob change) >>= (fun ob1 => coinbase.l2Changes rest ob1) := by
  simp only [coinbase.l2Changes, coinbase.routeChange, bind, Except.bind, pure, Except.pure]
  by_cases hb : change.1 = "buy"
  · simp only [hb, if_true]
    cases UpdateOb change.2.1 change.2.2 ob.BidPrices ob.BidSizes <;> rfl
  · by_cases hs : change.1 = "sell"
    · simp only [hb, hs, if_true, if_false]
      cases UpdateOb change.2.1 change.2.2 ob.AskPrices ob.AskSizes <;> rfl
    · simp only [hb, hs, if_false]

theorem l2Changes_eq_foldChanges (changes : List (String × String × String)) (ob : OrderBook) :
    coinbase.l2Changes changes ob = coinbase.foldChanges changes ob := by
  induction changes generalizing ob with
  | nil => rfl
  | cons change rest ih =>
    rw [l2Changes_cons]
    unfold coinbase.foldChanges
    rw [List.foldlM_cons]
    congr 1
    funext ob1
    exact ih ob1

/-- A change routed to the bids leaves the two ask slices as they were. -/
theorem routeChange_buy_asks (ob ob1 : OrderBook) (change : String × String × String)
    (hb : change.1 = "buy") (h : coinbase.routeChange ob change = .ok ob1) :
    ob1.AskPrices = ob.AskPrices ∧ ob1.AskSizes = ob.AskSizes := by
  simp only [coinbase.routeChange, hb, if_true] at h
  cases hu : UpdateOb change.2.1 change.2.2 ob.BidPrices ob.BidSizes with
  | error e => rw [hu] at h; exact absurd h (by simp)
  | ok r =>
    rw [hu] at h
    injection h with h
    subst h
    exact ⟨rfl, rfl⟩

/-- A change routed to the asks leaves the two bid slices as they were. -/
theorem routeChange_sell_bids (ob ob1 : OrderBook) (change : String × String × String)
    (hs : change.1 = "sell") (h : coinbase.routeChange ob change = .ok ob1) :
    ob1.BidPrices = ob.BidPrices ∧ ob1.BidSizes = ob.BidSizes := by
  have hb : ¬ change.1 = "buy" := by rw [hs]; decide
  simp only [coinbase.routeChange, hb, hs, if_true, if_false] at h
  cases hu : UpdateOb change.2.1 change.2.2 ob.AskPrices ob.AskSizes with
  | error e => rw [hu] at h; exact absurd h (by simp)
  | ok r =>
    rw [hu] at h
    injection h with h
    subst h
    exact ⟨rfl, rfl⟩

theorem l2Changes_all_buy (changes : List (String × String × String)) (ob ob1 : OrderBook)
    (hall : ∀ c ∈ changes, c.1 = "buy") (h : coinbase.l2Changes changes ob = .ok ob1) :
    ob1.AskPrices = ob.AskPrices ∧ ob1.AskSizes = ob.AskSizes := by
  induction changes generalizing ob with
  | nil =>
    simp only [coinbase.l2Changes, pure, Except.pure] at h
    injection h with h
    subst h
    exact ⟨rfl, rfl⟩
  | cons change rest ih =>
    rw [l2Changes_cons] at h
    cases hr : coinbase.routeChange ob change with
    | error e => rw [hr] at h; exact absurd h (by simp [bind, Except.bind])
    | ok mid =>
      rw [hr] at h
      obtain ⟨h1, h2⟩ := routeChange_buy_asks ob mid change (hall _ (List.mem_cons_self _ _)) hr
      obtain ⟨h3, h4⟩ := ih mid (fun c hc => hall c (List.mem_cons_of_mem _ hc)) h
      exact ⟨h3.trans h1, h4.trans h2⟩

theorem l2Changes_all_sell (changes : List (String × String × String)) (ob ob1 : OrderBook)
    (hall : ∀ c ∈ changes, c.1 = "sell") (h : coinbase.l2Changes changes ob = .ok ob1) :
    ob1.BidPrices = ob.BidPrices ∧ ob1.BidSizes = ob.BidSizes := by
  induction changes generalizing ob with
  | nil =>
    simp only [coinbase.l2Changes, pure, Except.pure] at h
    injection h with h
    subst h
    exact ⟨rfl, rfl⟩
  | cons change rest ih =>
    rw [l2Changes_cons] at h
    cases hr : coinbase.routeChange ob change with
    | error e => rw [hr] at h; exact absurd h (by simp [bind, Except.bind])
    | ok mid =>
      rw [hr] at h
      obtain ⟨h1, h2⟩ := routeChange_sell_bids ob mid change (hall _ (List.mem_cons_self _ _)) hr
      obtain ⟨h3, h4⟩ := ih mid (fun c hc => hall c (List.mem_cons_of_mem _ hc)) h
      exact ⟨h3.trans h1, h4.trans h2⟩

/-- C17: l2update routing.  `HandleL2UpdateMsg` is the left-to-right fold of
`routeChange` over the change list (`buy` to the bid slices, `sell` to the ask
slices, anything else no change); so a message whose changes are all `buy`
leaves the ask slices unchanged, and one whose changes are all `sell` leaves
the bid slices unchanged. -/
theorem C17_l2update_routing (msg : coinbase.obMsg) (ob : OrderBook) :
    coinbase.HandleL2UpdateMsg msg ob = coinbase.foldChanges msg.Changes ob ∧
    (∀ ob1, (∀ c ∈ msg.Changes, c.1 = "buy") → coinbase.HandleL2UpdateMsg msg ob = .ok ob1 →
      ob1.AskPrices = ob.AskPrices ∧ ob1.AskSizes = ob.AskSizes) ∧
    (∀ ob1, (∀ c ∈ msg.Changes, c.1 = "sell") → coinbase.HandleL2UpdateMsg msg ob = .ok ob1 →
      ob1.BidPrices = ob.BidPrices ∧ ob1.BidSizes = ob.BidSizes) :=
  ⟨l2Changes_eq_foldChanges msg.Changes ob,
   fun ob1 hall h => l2Changes_all_buy msg.Changes ob ob1 hall h,
   fun ob1 hall h => l2Changes_all_sell msg.Changes ob ob1 hall h⟩

/-- C17, an instance: the changes `buy 99 -> 0` and `buy 97 -> 5` on the book
with bids `[(98,3),(99,2),(100,1)]` and asks `[(101,4)]` leave the asks
untouched. -/
theorem C17_l2update_routing_witness :
    (∀ c ∈ [("buy", "99", "0"), ("buy", "97", "5")], c.1 = "buy") ∧
    coinbase.HandleL2UpdateMsg ⟨"l2update", "BTC-USD", [], [], [("buy", "99", "0"), ("buy", "97", "5")]⟩
      ⟨Slice.ofList [F64.fin 98, F64.fin 99, F64.fin 100],
       Slice.ofList [F64.fin 3, F64.fin 2, F64.fin 1],
       Slice.ofList [F64.fin 101], Slice.ofList [F64.fin 4]⟩
      = .ok ⟨⟨[F64.fin 97, F64.fin 98, F64.fin 100], 3⟩, ⟨[F64.fin 5, F64.fin 3, F64.fin 1], 3⟩,
             Slice.ofList [F64.fin 101], Slice.ofList [F64.fin 4]⟩ ∧
    (Slice.ofList [F64.fin 101] = Slice.ofList [F64.fin 101] ∧
     Slice.ofList [F64.fin 4] = Slice.ofList [F64.fin 4]) :=
  ⟨by decide, by decide,
   (C17_l2update_routing
      ⟨"l2update", "BTC-USD", [], [], [("buy", "99", "0"), ("buy", "97", "5")]⟩
      ⟨Slice.ofList [F64.fin 98, F64.fin 99, F64.fin 100],
       Slice.ofList [F64.fin 3, F64.fin 2, F64.fin 1],
       Slice.ofList [F64.fin 101], Slice.ofList [F64.fin 4]⟩).2.1
     ⟨⟨[F64.fin 97, F64.fin 98, F64.fin 100], 3⟩, ⟨[F64.fin 5, F64.fin 3, F64.fin 1], 3⟩,
      Slice.ofList [F64.fin 101], Slice.ofList [F64.fin 4]⟩
     (by decide) (by decide)⟩

/-- C18 (code defect): `UpdateOb` slices out of range.  When the price is
above every stored price and the slices have no spare capacity, the slice
expression `(*orderPrices)[:idx+1]` has `idx+1` beyond the capacity and
panics: on the nil slices of an empty side (capacity 0), and on the side
`[(99,2),(100,1)]` held in slices of length and capacity 2.  A fresh Coinbase
book that receives an update before any level is stored panics this way. -/
theorem C18_insert_slices_out_of_range :
    Slice.cap Slice.nil = 0 ∧
    UpdateOb "100" "1" Slice.nil Slice.nil = .error .panic ∧
    (Slice.ofList [F64.fin 99, F64.fin 100]).cap = (Slice.ofList [F64.fin 99, F64.fin 100]).len ∧
    UpdateOb "101" "7" (Slice.ofList [F64.fin 99, F64.fin 100])
      (Slice.ofList [F64.fin 2, F64.fin 1]) = .error .panic ∧
    coinbase.listenLoop [⟨"l2update", "BTC-USD", [], [], [("buy", "100", "1")]⟩]
      OrderBook.empty = .error .panic := by
  refine ⟨by decide, by decide, by decide, by decide, by decide⟩

/-! ## Claims about the Kraken loop -/

theorem kraken_keepalive_result (k : JSON) (ob : OrderBook) (hk : k.isStringMap = true) :
    kraken.HandleObUpdateMsg (some k) ob = .ok ⟨false, false, ob⟩ := by
  simp only [kraken.HandleObUpdateMsg, hk, if_true, pure, Except.pure]

theorem kraken_keepalive_step (k : JSON) (ob : OrderBook) (hk : k.isStringMap = true) :
    kraken.listenStep (some k) ob = .ok (ob, none) := by
  simp only [kraken.listenStep, kraken_keepalive_result k ob hk, kraken.emitBestOrders, bind,
    Except.bind, pure, Except.pure, Bool.false_and, Bool.false_eq_true, if_false]

theorem kraken_keepalive_skip (k : JSON) (rest : List (Option JSON)) (ob : OrderBook)
    (hk : k.isStringMap = true) :
    kraken.listenLoop (some k :: rest) ob = kraken.listenLoop rest ob := by
  simp only [kraken.listenLoop, kraken_keepalive_step k ob hk, bind, Except.bind, pure,
    Except.pure, Option.toList, List.nil_append]
  cases kraken.listenLoop rest ob <;> rfl

theorem kraken_foundOrders_levelDocs (l : List (String × String × String)) :
    kraken.foundOrders (l.map kraken.levelDoc) = .ok l := by
  induction l with
  | nil => rfl
  | cons x rest ih =>
    simp only [List.map_cons, kraken.foundOrders, bind, Except.bind, ih]
    rfl

theorem kraken_applyAsks_eq_fold (a : List (String × String × String)) (ob : OrderBook) :
    kraken.applyAsks a ob = a.foldlM kraken.askStep ob := by
  induction a generalizing ob with
  | nil => rfl
  | cons x rest ih =>
    rw [List.foldlM_cons]
    simp only [kraken.applyAsks, kraken.askStep, bind, Except.bind]
    cases UpdateOb x.1 x.2.1 ob.AskPrices ob.AskSizes with
    | error e => rfl
    | ok r => exact ih _

theorem kraken_applyBids_eq_fold (b : List (String × String × String)) (ob : OrderBook) :
    kraken.applyBids b ob = b.foldlM kraken.bidStep ob := by
  induction b generalizing ob with
  | nil => rfl
  | cons x rest ih =>
    rw [List.foldlM_cons]
    simp only [kraken.applyBids, kraken.bidStep, bind, Except.bind]
    cases UpdateOb x.1 x.2.1 ob.BidPrices ob.BidSizes with
    | error e => rfl
    | ok r => exact ih _

/-- On a delta message `HandleObUpdateMsg` applies the ask changes, then the
bid changes, and returns `(true, nil)`. -/
theorem kraken_delta_result (c : F64) (a b : Option (List (String × String × String)))
    (n p : String) (ob : OrderBook) :
    kraken.HandleObUpdateMsg (some (kraken.deltaDoc c a b n p)) ob =
      (kraken.applyDelta (a.getD []) (b.getD []) ob >>= fun f => pure ⟨true, false, f⟩) := by
  have hfold : ∀ (x y : List (String × String × String)),
      (kraken.applyAsks x ob >>= fun m => kraken.applyBids y m >>= fun f =>
        (pure ⟨true, false, f⟩ : Except Fault kraken.UpdateResult)) =
      (kraken.applyDelta x y ob >>= fun f => pure ⟨true, false, f⟩) := by
    intro x y
    simp only [kraken.applyDelta, kraken_applyAsks_eq_fold, bind, Except.bind]
    cases List.foldlM kraken.askStep ob x with
    | error e => rfl
    | ok m => simp only [kraken_applyBids_eq_fold]
  rw [← hfold]
  cases a <;> cases b <;>
    simp [kraken.HandleObUpdateMsg, kraken.deltaDoc, kraken.ordersDoc, JSON.isStringMap,
      JSON.toSlice, JSON.elem, JSON.asFloat64, JSON.asMap, JSON.asSlice, JSON.asString,
      JSON.lookup, kraken_foundOrders_levelDocs, bind, Except.bind, pure, Except.pure]

/-- One iteration of the Kraken loop on a delta message: the delta is applied
and the emission step runs with `updated = true`. -/
theorem kraken_delta_step (c : F64) (a b : Option (List (String × String × String)))
    (n p : String) (ob : OrderBook) :
    kraken.listenStep (some (kraken.deltaDoc c a b n p)) ob =
      (kraken.applyDelta (a.getD []) (b.getD []) ob >>= fun f =>
        kraken.emitBestOrders true f >>= fun out => pure (f, out)) := by
  simp only [kraken.listenStep, kraken_delta_result, bind, Except.bind, pure, Except.pure]
  cases kraken.applyDelta (a.getD []) (b.getD []) ob with
  | error e => rfl
  | ok f => rfl

/-- C13: a Kraken keepalive between two deltas.  For a message `k` that
decodes as a flat string-to-string mapping, `HandleObUpdateMsg` returns
`(false, nil)` and leaves the book as it is, and the loop iteration sends no
quote.  The session `d1, k, d2` has the outcome of the session `d1, d2`; and
when `d1` and `d2` are delta messages, that outcome is: the changes of `d1`
applied by `UpdateOb` (asks, then bids), the emission step, the changes of
`d2` applied to the resulting book, the emission step, with the final book
and the quotes of the two deltas as result. -/
theorem C13_kraken_keepalive_between_deltas (k : JSON) (d1 d2 : Option JSON) (ob : OrderBook)
    (hk : k.isStringMap = true) :
    (∀ book, kraken.HandleObUpdateMsg (some k) book = .ok ⟨false, false, book⟩) ∧
    (∀ book, kraken.listenStep (some k) book = .ok (book, none)) ∧
    kraken.listenLoop [d1, some k, d2] ob = kraken.listenLoop [d1, d2] ob ∧
    (∀ (c1 c2 : F64) (a1 b1 a2 b2 : Option (List (String × String × String)))
        (n1 p1 n2 p2 : String),
      kraken.listenLoop
        [some (kraken.deltaDoc c1 a1 b1 n1 p1), some k, some (kraken.deltaDoc c2 a2 b2 n2 p2)] ob
      = (kraken.applyDelta (a1.getD []) (b1.getD []) ob >>= fun m =>
          kraken.emitBestOrders true m >>= fun o1 =>
          kraken.applyDelta (a2.getD []) (b2.getD []) m >>= fun f =>
          kraken.emitBestOrders true f >>= fun o2 =>
          pure (f, o1.toList ++ o2.toList))) := by
  have hskip : ∀ (x y : Option JSON),
      kraken.listenLoop [x, some k, y] ob = kraken.listenLoop [x, y] ob := by
    intro x y
    simp only [kraken.listenLoop, bind, Except.bind]
    cases h1 : kraken.listenStep x ob with
    | error e => rfl
    | ok r =>
      simp only []
      have := kraken_keepalive_skip k [y] r.1 hk
      simp only [kraken.listenLoop, bind, Except.bind] at this
      rw [this]
  refine ⟨fun book => kraken_keepalive_result k book hk,
    fun book => kraken_keepalive_step k book hk, hskip d1 d2, ?_⟩
  intro c1 c2 a1 b1 a2 b2 n1 p1 n2 p2
  rw [hskip]
  simp only [kraken.listenLoop, kraken_delta_step, bind, Except.bind, pure, Except.pure]
  cases kraken.applyDelta (a1.getD []) (b1.getD []) ob with
  | error e => rfl
  | ok m =>
    simp only []
    cases kraken.emitBestOrders true m with
    | error e => rfl
    | ok o1 =>
      simp only []
      cases kraken.applyDelta (a2.getD []) (b2.getD []) m with
      | error e => rfl
      | ok f =>
        simp only []
        cases kraken.emitBestOrders true f with
        | error e => rfl
        | ok o2 => simp

/-- C13, an instance: the heartbeat `{"event": "heartbeat"}` between the
deltas `b: [["99","0","t"]]` and `a: [["101","6","t"]]` on the book with bids
`[(98,3),(99,2),(100,1)]` and asks `[(101,4),(102,5)]`.  The session ends with
bids `[(98,3),(100,1)]` and asks `[(101,6),(102,5)]`, and sends the quote bid
100 size 1, ask 101 size 4 after the first delta and bid 100 size 1, ask 101
size 6 after the second. -/
theorem C13_kraken_keepalive_between_deltas_witness :
    JSON.isStringMap (JSON.object [("event", JSON.string "heartbeat")]) = true ∧
    kraken.listenLoop
      [some (kraken.deltaDoc (F64.fin 0) none (some [("99", "0", "t")]) "book-25" "XBT/USD"),
       some (JSON.object [("event", JSON.string "heartbeat")]),
       some (kraken.deltaDoc (F64.fin 0) (some [("101", "6", "t")]) none "book-25" "XBT/USD")]
      ⟨Slice.ofList [F64.fin 98, F64.fin 99, F64.fin 100],
       Slice.ofList [F64.fin 3, F64.fin 2, F64.fin 1],
       Slice.ofList [F64.fin 101, F64.fin 102], Slice.ofList [F64.fin 4, F64.fin 5]⟩
      = .ok (⟨⟨[F64.fin 98, F64.fin 100, F64.fin 100], 2⟩, ⟨[F64.fin 3, F64.fin 1, F64.fin 1], 2⟩,
              ⟨[F64.fin 101, F64.fin 102], 2⟩, ⟨[F64.fin 6, F64.fin 5], 2⟩⟩,
             [((F64.fin 100, F64.fin 1), (F64.fin 101, F64.fin 4)),
              ((F64.fin 100, F64.fin 1), (F64.fin 101, F64.fin 6))]) ∧
    (kraken.applyDelta [] [("99", "0", "t")]
        ⟨Slice.ofList [F64.fin 98, F64.fin 99, F64.fin 100],
         Slice.ofList [F64.fin 3, F64.fin 2, F64.fin 1],
         Slice.ofList [F64.fin 101, F64.fin 102], Slice.ofList [F64.fin 4, F64.fin 5]⟩
      >>= fun m =>
        kraken.emitBestOrders true m >>= fun o1 =>
        kraken.applyDelta [("101", "6", "t")] [] m >>= fun f =>
        kraken.emitBestOrders true f >>= fun o2 =>
        pure (f, o1.toList ++ o2.toList))
      = .ok (⟨⟨[F64.fin 98, F64.fin 100, F64.fin 100], 2⟩, ⟨[F64.fin 3, F64.fin 1, F64.fin 1], 2⟩,
              ⟨[F64.fin 101, F64.fin 102], 2⟩, ⟨[F64.fin 6, F64.fin 5], 2⟩⟩,
             [((F64.fin 100, F64.fin 1), (F64.fin 101, F64.fin 4)),
              ((F64.fin 100, F64.fin 1), (F64.fin 101, F64.fin 6))]) :=
  ⟨by decide, by decide,
   ((C13_kraken_keepalive_between_deltas (JSON.object [("event", JSON.string "heartbeat")])
      none none
      ⟨Slice.ofList [F64.fin 98, F64.fin 99, F64.fin 100],
       Slice.ofList [F64.fin 3, F64.fin 2, F64.fin 1],
       Slice.ofList [F64.fin 101, F64.fin 102], Slice.ofList [F64.fin 4, F64.fin 5]⟩
      (by decide)).2.2.2 (F64.fin 0) (F64.fin 0) none (some [("99", "0", "t")])
        (some [("101", "6", "t")]) none "book-25" "XBT/USD" "book-25" "XBT/USD").symm.trans
     (by decide)⟩

/-- A message that is not a keepalive and is handled without error has
`updated = true`. -/
theorem kraken_delta_updated (doc : JSON) (ob : OrderBook) (r : kraken.UpdateResult)
    (hd : doc.isStringMap = false) (h : kraken.HandleObUpdateMsg (some doc) ob = .ok r)
    (hf : r.failed = false) : r.updated = true := by
  simp only [kraken.HandleObUpdateMsg, hd, Bool.false_eq_true, if_false, bind, Except.bind, pure,
    Except.pure] at h
  repeat' split at h
  all_goals first
    | (injection h with h; subst h; first | rfl | (simp at hf))
    | (exact absurd h (by simp))

/-! ## Claims about when a quote is sent -/

/-- The emission step sends the best orders of the book when the bid slice is
non-empty, and nothing otherwise. -/
theorem coinbase_emit_cases (ob : OrderBook) (out : Option Quote)
    (h : coinbase.emitBestOrders ob = .ok out) :
    (0 < ob.BidPrices.len → ∃ q, out = some q ∧ bestOrdersOf ob = .ok q) ∧
    (ob.BidPrices.len = 0 → out = none) := by
  unfold coinbase.emitBestOrders at h
  by_cases hl : ob.BidPrices.len > 0
  · simp only [hl, if_true, bind, Except.bind, pure, Except.pure] at h
    cases hq : bestOrdersOf ob with
    | error e => rw [hq] at h; exact absurd h (by simp)
    | ok q =>
      rw [hq] at h
      injection h with h
      exact ⟨fun _ => ⟨q, h.symm, rfl⟩, fun h0 => by omega⟩
  · simp only [hl, if_false, pure, Except.pure] at h
    injection h with h
    exact ⟨fun hp => absurd hp hl, fun _ => h.symm⟩

/-- C14 as stated fails: a delta that leaves both best levels as they were
still makes the loop send a quote.  On the book with bids
`[(98,3),(99,2),(100,1)]` and asks `[(101,4),(102,5)]` the best orders are bid
100 size 1, ask 101 size 4; the delta "bid 98 gets size 5" does not change
them, and the Coinbase iteration and the Kraken iteration both send that quote. -/
theorem C14_counterexample_quote_without_change :
    bestOrdersOf
      ⟨Slice.ofList [F64.fin 98, F64.fin 99, F64.fin 100],
       Slice.ofList [F64.fin 3, F64.fin 2, F64.fin 1],
       Slice.ofList [F64.fin 101, F64.fin 102], Slice.ofList [F64.fin 4, F64.fin 5]⟩
      = .ok ((F64.fin 100, F64.fin 1), (F64.fin 101, F64.fin 4)) ∧
    bestOrdersOf
      ⟨Slice.ofList [F64.fin 98, F64.fin 99, F64.fin 100],
       Slice.ofList [F64.fin 5, F64.fin 2, F64.fin 1],
       Slice.ofList [F64.fin 101, F64.fin 102], Slice.ofList [F64.fin 4, F64.fin 5]⟩
      = .ok ((F64.fin 100, F64.fin 1), (F64.fin 101, F64.fin 4)) ∧
    coinbase.listenStep ⟨"l2update", "BTC-USD", [], [], [("buy", "98", "5")]⟩
      ⟨Slice.ofList [F64.fin 98, F64.fin 99, F64.fin 100],
       Slice.ofList [F64.fin 3, F64.fin 2, F64.fin 1],
       Slice.ofList [F64.fin 101, F64.fin 102], Slice.ofList [F64.fin 4, F64.fin 5]⟩
      = .ok (⟨Slice.ofList [F64.fin 98, F64.fin 99, F64.fin 100],
              Slice.ofList [F64.fin 5, F64.fin 2, F64.fin 1],
              Slice.ofList [F64.fin 101, F64.fin 102], Slice.ofList [F64.fin 4, F64.fin 5]⟩,
             some ((F64.fin 100, F64.fin 1), (F64.fin 101, F64.fin 4))) ∧
    kraken.listenStep
      (some (JSON.array [JSON.number (F64.fin 0),
        JSON.object [("b", JSON.array
          [JSON.array [JSON.string "98", JSON.string "5", JSON.string "t"]])],
        JSON.string "book-25", JSON.string "XBT/USD"]))
      ⟨Slice.ofList [F64.fin 98, F64.fin 99, F64.fin 100],
       Slice.ofList [F64.fin 3, F64.fin 2, F64.fin 1],
       Slice.ofList [F64.fin 101, F64.fin 102], Slice.ofList [F64.fin 4, F64.fin 5]⟩
      = .ok (⟨Slice.ofList [F64.fin 98, F64.fin 99, F64.fin 100],
              Slice.ofList [F64.fin 5, F64.fin 2, F64.fin 1],
              Slice.ofList [F64.fin 101, F64.fin 102], Slice.ofList [F64.fin 4, F64.fin 5]⟩,
             some ((F64.fin 100, F64.fin 1), (F64.fin 101, F64.fin 4))) := by
  refine ⟨by decide, by decide, by decide, by decide⟩

/-- C14 (amended): a quote is sent for a delta exactly when the bid side is
not empty afterwards.  For every book and every delta message with at least
one change (Coinbase: type `l2update`, every change with side `buy` or `sell`;
Kraken: a positional delta message), a completed loop iteration leaves the
book obtained by applying the changes with `UpdateOb`, and sends the best
orders of that book if its bid slice is non-empty, nothing otherwise.  Whether
a best level changed plays no part. -/
theorem C14_quote_sent_iff_bids_nonempty :
    (∀ (msg : coinbase.obMsg) (ob ob1 : OrderBook) (out : Option Quote),
      msg.Typ = "l2update" → msg.Changes ≠ [] →
      (∀ c ∈ msg.Changes, c.1 = "buy" ∨ c.1 = "sell") →
      coinbase.listenStep msg ob = .ok (ob1, out) →
        coinbase.foldChanges msg.Changes ob = .ok ob1 ∧
        (0 < ob1.BidPrices.len → ∃ q, out = some q ∧ bestOrdersOf ob1 = .ok q) ∧
        (ob1.BidPrices.len = 0 → out = none)) ∧
    (∀ (c : F64) (a b : Option (List (String × String × String))) (n p : String)
        (ob ob1 : OrderBook) (out : Option Quote),
      a.getD [] ++ b.getD [] ≠ [] →
      kraken.listenStep (some (kraken.deltaDoc c a b n p)) ob = .ok (ob1, out) →
        kraken.applyDelta (a.getD []) (b.getD []) ob = .ok ob1 ∧
        (0 < ob1.BidPrices.len → ∃ q, out = some q ∧ bestOrdersOf ob1 = .ok q) ∧
        (ob1.BidPrices.len = 0 → out = none)) := by
  constructor
  · intro msg ob ob1 out hT _ _ h
    have hrun : coinbase.HandleMessage msg ob = coinbase.foldChanges msg.Changes ob := by
      simp only [coinbase.HandleMessage, hT]
      rw [if_neg (by decide), if_neg (by decide), if_pos trivial]
      exact l2Changes_eq_foldChanges msg.Changes ob
    simp only [coinbase.listenStep, bind, Except.bind, pure, Except.pure] at h
    rw [hrun] at h
    cases hm : coinbase.foldChanges msg.Changes ob with
    | error e => rw [hm] at h; exact absurd h (by simp)
    | ok mid =>
      rw [hm] at h
      simp only [] at h
      cases he : coinbase.emitBestOrders mid with
      | error e => rw [he] at h; exact absurd h (by simp)
      | ok o =>
        rw [he] at h
        injection h with h
        injection h with h1 h2
        subst h1; subst h2
        exact ⟨rfl, coinbase_emit_cases mid o he⟩
  · intro c a b n p ob ob1 out _ h
    rw [kraken_delta_step] at h
    simp only [bind, Except.bind, pure, Except.pure] at h
    cases hm : kraken.applyDelta (a.getD []) (b.getD []) ob with
    | error e => rw [hm] at h; exact absurd h (by simp)
    | ok mid =>
      rw [hm] at h
      simp only [] at h
      cases he : kraken.emitBestOrders true mid with
      | error e => rw [he] at h; exact absurd h (by simp)
      | ok o =>
        rw [he] at h
        injection h with h
        injection h with h1 h2
        subst h1; subst h2
        have hc : coinbase.emitBestOrders mid = .ok o := by
          rw [← he]
          simp [coinbase.emitBestOrders, kraken.emitBestOrders]
        exact ⟨rfl, coinbase_emit_cases mid o hc⟩

/-- C14, an instance: the Coinbase iteration on the delta "bid 98 gets size 5". -/
theorem C14_quote_sent_iff_bids_nonempty_witness :
    coinbase.listenStep ⟨"l2update", "BTC-USD", [], [], [("buy", "98", "5")]⟩
      ⟨Slice.ofList [F64.fin 98, F64.fin 99, F64.fin 100],
       Slice.ofList [F64.fin 3, F64.fin 2, F64.fin 1],
       Slice.ofList [F64.fin 101, F64.fin 102], Slice.ofList [F64.fin 4, F64.fin 5]⟩
      = .ok (⟨Slice.ofList [F64.fin 98, F64.fin 99, F64.fin 100],
              Slice.ofList [F64.fin 5, F64.fin 2, F64.fin 1],
              Slice.ofList [F64.fin 101, F64.fin 102], Slice.ofList [F64.fin 4, F64.fin 5]⟩,
             some ((F64.fin 100, F64.fin 1), (F64.fin 101, F64.fin 4))) ∧
    (coinbase.foldChanges [("buy", "98", "5")]
      ⟨Slice.ofList [F64.fin 98, F64.fin 99, F64.fin 100],
       Slice.ofList [F64.fin 3, F64.fin 2, F64.fin 1],
       Slice.ofList [F64.fin 101, F64.fin 102], Slice.ofList [F64.fin 4, F64.fin 5]⟩
      = .ok ⟨Slice.ofList [F64.fin 98, F64.fin 99, F64.fin 100],
              Slice.ofList [F64.fin 5, F64.fin 2, F64.fin 1],
              Slice.ofList [F64.fin 101, F64.fin 102], Slice.ofList [F64.fin 4, F64.fin 5]⟩ ∧
     (0 < (Slice.ofList [F64.fin 98, F64.fin 99, F64.fin 100]).len →
        ∃ q, some ((F64.fin 100, F64.fin 1), (F64.fin 101, F64.fin 4)) = some q ∧
          bestOrdersOf ⟨Slice.ofList [F64.fin 98, F64.fin 99, F64.fin 100],
              Slice.ofList [F64.fin 5, F64.fin 2, F64.fin 1],
              Slice.ofList [F64.fin 101, F64.fin 102], Slice.ofList [F64.fin 4, F64.fin 5]⟩
            = .ok q) ∧
     ((Slice.ofList [F64.fin 98, F64.fin 99, F64.fin 100]).len = 0 →
        some ((F64.fin 100, F64.fin 1), (F64.fin 101, F64.fin 4)) = none)) :=
  ⟨by decide,
   C14_quote_sent_iff_bids_nonempty.1
    ⟨"l2update", "BTC-USD", [], [], [("buy", "98", "5")]⟩ _ _ _
    rfl (by decide) (by decide) (by decide)⟩

/-! ## Claims about a second snapshot -/

/-- The model of `ParseFloat` fails by `log.Fatalf` only. -/
theorem ParseFloat_ne_panic (s : String) : ParseFloat s ≠ .error .panic := by
  have hfin : ∀ q, finiteOrRange q ≠ .error .panic := by
    intro q
    unfold finiteOrRange
    split <;> simp
  have hsig : ∀ neg cs, parseSigned neg cs ≠ .error .panic := by
    intro neg cs
    unfold parseSigned
    simp only []
    split
    · simp
    · split
      · exact hfin _
      · simp
  unfold ParseFloat
  split
  · simp
  · split <;> exact hsig _ _

theorem coinbase_snapshotBids_no_panic (bids : List (String × String)) :
    ∀ (i : Nat) (ob : OrderBook), i < bids.length ∨ i = 0 →
      coinbase.snapshotBids bids i ob ≠ .error .panic := by
  intro i
  induction i with
  | zero => intro ob _; simp [coinbase.snapshotBids, pure, Except.pure]
  | succ i ih =>
    intro ob hi
    have hlt : i + 1 < bids.length := by omega
    simp only [coinbase.snapshotBids, List.getElem?_eq_getElem hlt, bind, Except.bind, pure,
      Except.pure]
    cases hp : ParseFloat (bids[i + 1]).1 with
    | error e =>
      simp only []
      intro h
      injection h with h
      subst h
      exact ParseFloat_ne_panic _ hp
    | ok p =>
      simp only []
      cases hs : ParseFloat (bids[i + 1]).2 with
      | error e =>
        simp only []
        intro h
        injection h with h
        subst h
        exact ParseFloat_ne_panic _ hs
      | ok sz =>
        simp only []
        exact ih _ (Or.inl (by omega))

theorem coinbase_snapshotAsks_no_panic (asks : List (String × String)) :
    ∀ (ob : OrderBook), coinbase.snapshotAsks asks ob ≠ .error .panic := by
  induction asks with
  | nil => intro ob; simp [coinbase.snapshotAsks, pure, Except.pure]
  | cons ask rest ih =>
    intro ob
    simp only [coinbase.snapshotAsks, bind, Except.bind]
    cases hp : ParseFloat ask.1 with
    | error e =>
      simp only []
      intro h
      injection h with h
      subst h
      exact ParseFloat_ne_panic _ hp
    | ok p =>
      simp only []
      cases hs : ParseFloat ask.2 with
      | error e =>
        simp only []
        intro h
        injection h with h
        subst h
        exact ParseFloat_ne_panic _ hs
      | ok sz =>
        simp only []
        exact ih _

/-- The bid loop of the snapshot handler appends, to whatever the bid slices
hold, the levels `bids[i], bids[i-1], .., bids[1]`, and leaves the ask slices
alone. -/
theorem coinbase_snapshotBids_spec (bids : List (String × String)) :
    ∀ (i : Nat) (ob ob1 : OrderBook), i < bids.length ∨ i = 0 →
      ob.BidPrices.WF → ob.BidSizes.WF →
      coinbase.snapshotBids bids i ob = .ok ob1 →
      ∃ bp bs, ob1.BidPrices.data = ob.BidPrices.data ++ bp ∧
        ob1.BidSizes.data = ob.BidSizes.data ++ bs ∧
        ParsedPrices ((bids.drop 1).take i).reverse bp ∧
        ParsedSizes ((bids.drop 1).take i).reverse bs ∧
        ob1.AskPrices = ob.AskPrices ∧ ob1.AskSizes = ob.AskSizes ∧
        ob1.BidPrices.WF ∧ ob1.BidSizes.WF ∧
        ob1.BidPrices.len = ob.BidPrices.len + i ∧ ob1.BidSizes.len = ob.BidSizes.len + i := by
  intro i
  induction i with
  | zero =>
    intro ob ob1 _ hw1 hw2 h
    simp only [coinbase.snapshotBids, pure, Except.pure] at h
    injection h with h
    subst h
    exact ⟨[], [], by simp, by simp, by simp [ParsedPrices], by simp [ParsedSizes], rfl, rfl,
      hw1, hw2, rfl, rfl⟩
  | succ i ih =>
    intro ob ob1 hi hw1 hw2 h
    have hlt : i + 1 < bids.length := by omega
    simp only [coinbase.snapshotBids, List.getElem?_eq_getElem hlt, bind, Except.bind, pure,
      Except.pure] at h
    cases hp : ParseFloat (bids[i + 1]).1 with
    | error e => rw [hp] at h; exact absurd h (by simp)
    | ok p =>
      rw [hp] at h
      simp only [] at h
      cases hs : ParseFloat (bids[i + 1]).2 with
      | error e => rw [hs] at h; exact absurd h (by simp)
      | ok sz =>
        rw [hs] at h
        simp only [] at h
        obtain ⟨bp, bs, h1, h2, h3, h4, h5, h6, h7, h8, h9, h10⟩ :=
          ih _ ob1 (Or.inl (by omega)) (Slice.append_WF _ _ hw1) (Slice.append_WF _ _ hw2) h
        simp only [Slice.append_data _ _ hw1, Slice.append_data _ _ hw2, Slice.append_len,
          List.length_singleton] at h1 h2 h9 h10
        have hrev : ((bids.drop 1).take (i + 1)).reverse
            = bids[i + 1] :: ((bids.drop 1).take i).reverse := by
          rw [List.take_succ, List.getElem?_drop, List.getElem?_eq_getElem (by omega)]
          simp only [Option.toList_some, List.reverse_append, List.reverse_cons, List.reverse_nil,
            List.nil_append, List.singleton_append]
          congr 2
          omega
        refine ⟨p :: bp, sz :: bs, ?_, ?_, ?_, ?_, h5, h6, h7, h8, by omega, by omega⟩
        · rw [h1]; simp
        · rw [h2]; simp
        · rw [hrev]; exact List.Forall₂.cons hp h3
        · rw [hrev]; exact List.Forall₂.cons hs h4

/-- The ask loop of the snapshot handler appends the levels of the payload in
payload order and leaves the bid slices alone. -/
theorem coinbase_snapshotAsks_spec (asks : List (String × String)) :
    ∀ (ob ob1 : OrderBook), ob.AskPrices.WF → ob.AskSizes.WF →
      coinbase.snapshotAsks asks ob = .ok ob1 →
      ∃ ap az, ob1.AskPrices.data = ob.AskPrices.data ++ ap ∧
        ob1.AskSizes.data = ob.AskSizes.data ++ az ∧
        ParsedPrices asks ap ∧ ParsedSizes asks az ∧
        ob1.BidPrices = ob.BidPrices ∧ ob1.BidSizes = ob.BidSizes ∧
        ob1.AskPrices.len = ob.AskPrices.len + asks.length ∧
        ob1.AskSizes.len = ob.AskSizes.len + asks.length := by
  induction asks with
  | nil =>
    intro ob ob1 _ _ h
    simp only [coinbase.snapshotAsks, pure, Except.pure] at h
    injection h with h
    subst h
    exact ⟨[], [], by simp, by simp, by simp [ParsedPrices], by simp [ParsedSizes], rfl, rfl,
      rfl, rfl⟩
  | cons ask rest ih =>
    intro ob ob1 hw1 hw2 h
    simp only [coinbase.snapshotAsks, bind, Except.bind] at h
    cases hp : ParseFloat ask.1 with
    | error e => rw [hp] at h; exact absurd h (by simp)
    | ok p =>
      rw [hp] at h
      simp only [] at h
      cases hs : ParseFloat ask.2 with
      | error e => rw [hs] at h; exact absurd h (by simp)
      | ok sz =>
        rw [hs] at h
        simp only [] at h
        obtain ⟨ap, az, h1, h2, h3, h4, h5, h6, h7, h8⟩ :=
          ih _ ob1 (Slice.append_WF _ _ hw1) (Slice.append_WF _ _ hw2) h
        simp only [Slice.append_data _ _ hw1, Slice.append_data _ _ hw2, Slice.append_len,
          List.length_singleton] at h1 h2 h7 h8
        refine ⟨p :: ap, sz :: az, ?_, ?_, List.Forall₂.cons hp h3, List.Forall₂.cons hs h4,
          h5, h6, ?_, ?_⟩
        · rw [h1]; simp
        · rw [h2]; simp
        · simp only [List.length_cons]; omega
        · simp only [List.length_cons]; omega

theorem coinbase_snapshotBids_total (bids : List (String × String))
    (hall : AllParse (bids.drop 1)) :
    ∀ (i : Nat) (ob : OrderBook), i < bids.length ∨ i = 0 →
      ∃ ob1, coinbase.snapshotBids bids i ob = .ok ob1 := by
  intro i
  induction i with
  | zero => intro ob _; exact ⟨ob, rfl⟩
  | succ i ih =>
    intro ob hi
    have hlt : i + 1 < bids.length := by omega
    have hmem : bids[i + 1] ∈ bids.drop 1 := by
      rw [List.mem_drop_iff_getElem]
      exact ⟨i, by omega, by congr 1; omega⟩
    obtain ⟨⟨v, hv⟩, ⟨w, hw⟩⟩ := hall _ hmem
    simp only [coinbase.snapshotBids, List.getElem?_eq_getElem hlt, bind, Except.bind, pure,
      Except.pure, hv, hw]
    exact ih _ (Or.inl (by omega))

theorem coinbase_snapshotAsks_total (asks : List (String × String)) (hall : AllParse asks) :
    ∀ (ob : OrderBook), ∃ ob1, coinbase.snapshotAsks asks ob = .ok ob1 := by
  induction asks with
  | nil => intro ob; exact ⟨ob, rfl⟩
  | cons ask rest ih =>
    intro ob
    obtain ⟨⟨v, hv⟩, ⟨w, hw⟩⟩ := hall ask (List.mem_cons_self _ _)
    simp only [coinbase.snapshotAsks, bind, Except.bind, hv, hw]
    exact ih (fun b hb => hall b (List.mem_cons_of_mem _ hb)) _

/-- C15 as stated fails: a duplicate snapshot is merged and nothing is
reported.  From the empty book the snapshot with bids `[["100","1"],["99","2"]]`
and asks `[["101","1"]]` gives a populated book; handling the same message
again returns normally, with levels appended a second time (bids `[99, 99]`,
asks `[101, 101]`), and the integrity check prints nothing. -/
theorem C15_counterexample_duplicate_snapshot_merged :
    coinbase.HandleMessage
      ⟨"snapshot", "BTC-USD", [("100", "1"), ("99", "2")], [("101", "1")], []⟩ OrderBook.empty
      = .ok ⟨⟨[F64.fin 99], 1⟩, ⟨[F64.fin 2], 1⟩, ⟨[F64.fin 101], 1⟩, ⟨[F64.fin 1], 1⟩⟩ ∧
    coinbase.HandleMessage
      ⟨"snapshot", "BTC-USD", [("100", "1"), ("99", "2")], [("101", "1")], []⟩
      ⟨⟨[F64.fin 99], 1⟩, ⟨[F64.fin 2], 1⟩, ⟨[F64.fin 101], 1⟩, ⟨[F64.fin 1], 1⟩⟩
      = .ok ⟨⟨[F64.fin 99, F64.fin 99], 2⟩, ⟨[F64.fin 2, F64.fin 2], 2⟩,
             ⟨[F64.fin 101, F64.fin 101], 2⟩, ⟨[F64.fin 1, F64.fin 1], 2⟩⟩ ∧
    coinbase.HandleObSnapshotMsgPrints
      ⟨"snapshot", "BTC-USD", [("100", "1"), ("99", "2")], [("101", "1")], []⟩
      ⟨⟨[F64.fin 99], 1⟩, ⟨[F64.fin 2], 1⟩, ⟨[F64.fin 101], 1⟩, ⟨[F64.fin 1], 1⟩⟩
      = .ok (⟨⟨[F64.fin 99, F64.fin 99], 2⟩, ⟨[F64.fin 2, F64.fin 2], 2⟩,
              ⟨[F64.fin 101, F64.fin 101], 2⟩, ⟨[F64.fin 1, F64.fin 1], 2⟩⟩, []) := by
  refine ⟨by decide, by decide, by decide⟩

/-- Which lines the integrity check prints. -/
theorem integrityPrints_mem (ob : OrderBook) :
    ("Bid prices not sorted." ∈ coinbase.integrityPrints ob ↔
      Float64sAreSorted ob.BidPrices.data = false) ∧
    ("Ask prices not sorted." ∈ coinbase.integrityPrints ob ↔
      Float64sAreSorted ob.AskPrices.data = false) ∧
    (∀ line ∈ coinbase.integrityPrints ob,
      line = "Bid prices not sorted." ∨ line = "Ask prices not sorted.") := by
  unfold coinbase.integrityPrints
  have hne : ¬ ("Bid prices not sorted." = "Ask prices not sorted.") := by decide
  have hne2 : ¬ ("Ask prices not sorted." = "Bid prices not sorted.") := by decide
  cases hB : Float64sAreSorted ob.BidPrices.data <;>
    cases hA : Float64sAreSorted ob.AskPrices.data <;>
    simp [hne, hne2]

/-- C15 (amended): a snapshot message on a populated book is merged, and it
is reported only when the merge leaves a price slice out of order.  For every
book and every message of type `snapshot`, `HandleMessage` runs
`HandleObSnapshotMsg`; it never panics and it returns whenever the fields of
the bids and of the asks parse.  When it returns, the levels the book held
are still there, followed by parsed levels of the payload, the bids in
reverse payload order and the asks in payload order; it prints
"Bid prices not sorted." exactly when the bid prices are then not in
ascending order, "Ask prices not sorted." exactly when the ask prices are
not, and no other report. -/
theorem C15_snapshot_merged_and_checked (msg : coinbase.obMsg) (ob : OrderBook)
    (hT : msg.Typ = "snapshot")
    (h1 : ob.BidPrices.WF) (h2 : ob.BidSizes.WF) (h3 : ob.AskPrices.WF) (h4 : ob.AskSizes.WF) :
    coinbase.HandleMessage msg ob = coinbase.HandleObSnapshotMsg msg ob ∧
    coinbase.HandleMessage msg ob ≠ .error .panic ∧
    (AllParse msg.Bids → AllParse msg.Asks →
      ∃ ob1, coinbase.HandleMessage msg ob = .ok ob1 ∧
        coinbase.HandleObSnapshotMsgPrints msg ob = .ok (ob1, coinbase.integrityPrints ob1)) ∧
    (∀ ob1 prints, coinbase.HandleObSnapshotMsgPrints msg ob = .ok (ob1, prints) →
      coinbase.HandleMessage msg ob = .ok ob1 ∧
      ∃ levels rest bp bs ap az,
        msg.Bids.reverse = levels ++ rest ∧ rest.length ≤ 1 ∧
        ParsedPrices levels bp ∧ ParsedSizes levels bs ∧
        ParsedPrices msg.Asks ap ∧ ParsedSizes msg.Asks az ∧
        ob1.BidPrices.data = ob.BidPrices.data ++ bp ∧
        ob1.BidSizes.data = ob.BidSizes.data ++ bs ∧
        ob1.AskPrices.data = ob.AskPrices.data ++ ap ∧
        ob1.AskSizes.data = ob.AskSizes.data ++ az ∧
        ("Bid prices not sorted." ∈ prints ↔
          Float64sAreSorted (ob.BidPrices.data ++ bp) = false) ∧
        ("Ask prices not sorted." ∈ prints ↔
          Float64sAreSorted (ob.AskPrices.data ++ ap) = false) ∧
        (∀ line ∈ prints,
          line = "Bid prices not sorted." ∨ line = "Ask prices not sorted.")) := by
  have hrun : coinbase.HandleMessage msg ob = coinbase.HandleObSnapshotMsg msg ob := by
    simp only [coinbase.HandleMessage, hT]
    rw [if_neg (by decide), if_pos trivial]
  have hi : msg.Bids.length - 1 < msg.Bids.length ∨ msg.Bids.length - 1 = 0 := by omega
  have htake : (msg.Bids.drop 1).take (msg.Bids.length - 1) = msg.Bids.drop 1 := by
    apply List.take_of_length_le
    simp
  have hrev : msg.Bids.reverse = (msg.Bids.drop 1).reverse ++ (msg.Bids.take 1).reverse := by
    rw [← List.reverse_append, List.take_append_drop]
  have hrest : (msg.Bids.take 1).reverse.length ≤ 1 := by
    simp only [List.length_reverse, List.length_take]
    omega
  refine ⟨hrun, ?_, ?_, ?_⟩
  · rw [hrun]
    simp only [coinbase.HandleObSnapshotMsg, bind, Except.bind]
    cases hb : coinbase.snapshotBids msg.Bids (msg.Bids.length - 1) ob with
    | error e =>
      simp only []
      intro h
      injection h with h
      subst h
      exact coinbase_snapshotBids_no_panic msg.Bids _ ob hi hb
    | ok mid => exact coinbase_snapshotAsks_no_panic msg.Asks mid
  · intro hpb hpa
    have hpb1 : AllParse (msg.Bids.drop 1) :=
      fun x hx => hpb x (List.mem_of_mem_drop hx)
    obtain ⟨mid, hmid⟩ := coinbase_snapshotBids_total msg.Bids hpb1 _ ob hi
    obtain ⟨ob1, hob1⟩ := coinbase_snapshotAsks_total msg.Asks hpa mid
    have hs : coinbase.HandleObSnapshotMsg msg ob = .ok ob1 := by
      simp only [coinbase.HandleObSnapshotMsg, bind, Except.bind, hmid, hob1]
    refine ⟨ob1, by rw [hrun, hs], ?_⟩
    simp only [coinbase.HandleObSnapshotMsgPrints, hs, bind, Except.bind, pure, Except.pure]
  · intro ob1 prints h
    simp only [coinbase.HandleObSnapshotMsgPrints, bind, Except.bind, pure, Except.pure] at h
    cases hs : coinbase.HandleObSnapshotMsg msg ob with
    | error e => rw [hs] at h; exact absurd h (by simp)
    | ok res =>
      rw [hs] at h
      injection h with h
      injection h with e1 e2
      subst e1
      refine ⟨by rw [hrun, hs], ?_⟩
      simp only [coinbase.HandleObSnapshotMsg, bind, Except.bind] at hs
      cases hb : coinbase.snapshotBids msg.Bids (msg.Bids.length - 1) ob with
      | error e => rw [hb] at hs; exact absurd hs (by simp)
      | ok mid =>
        rw [hb] at hs
        simp only [] at hs
        obtain ⟨bp, bs, b1, b2, b3, b4, b5, b6, _, _, _, _⟩ :=
          coinbase_snapshotBids_spec msg.Bids _ ob mid hi h1 h2 hb
        obtain ⟨ap, az, a1, a2, a3, a4, a5, a6, _, _⟩ :=
          coinbase_snapshotAsks_spec msg.Asks mid res (by rw [b5]; exact h3)
            (by rw [b6]; exact h4) hs
        rw [htake] at b3 b4
        have d1 : res.BidPrices.data = ob.BidPrices.data ++ bp := by rw [a5, b1]
        have d3 : res.AskPrices.data = ob.AskPrices.data ++ ap := by rw [a1, b5]
        obtain ⟨m1, m2, m3⟩ := integrityPrints_mem res
        rw [d1] at m1
        rw [d3] at m2
        rw [e2] at m1 m2 m3
        exact ⟨(msg.Bids.drop 1).reverse, (msg.Bids.take 1).reverse, bp, bs, ap, az, hrev, hrest,
          b3, b4, a3, a4, d1, by rw [a6, b2], d3, by rw [a2, b6], m1, m2, m3⟩

/-- C15, an instance: the duplicate of a snapshot with three bids and two
asks.  The levels are appended after those already stored and both lines of
the integrity check are printed. -/
theorem C15_snapshot_merged_and_checked_witness :
    coinbase.HandleObSnapshotMsgPrints
      ⟨"snapshot", "BTC-USD", [("100", "1"), ("99", "2"), ("98", "3")],
        [("101", "1"), ("102", "1")], []⟩
      ⟨⟨[F64.fin 98, F64.fin 99], 2⟩, ⟨[F64.fin 3, F64.fin 2], 2⟩,
       ⟨[F64.fin 101, F64.fin 102], 2⟩, ⟨[F64.fin 1, F64.fin 1], 2⟩⟩
      = .ok (⟨⟨[F64.fin 98, F64.fin 99, F64.fin 98, F64.fin 99], 4⟩,
              ⟨[F64.fin 3, F64.fin 2, F64.fin 3, F64.fin 2], 4⟩,
              ⟨[F64.fin 101, F64.fin 102, F64.fin 101, F64.fin 102], 4⟩,
              ⟨[F64.fin 1, F64.fin 1, F64.fin 1, F64.fin 1], 4⟩⟩,
             ["Bid prices not sorted.", "Ask prices not sorted."]) ∧
    (coinbase.HandleMessage
      ⟨"snapshot", "BTC-USD", [("100", "1"), ("99", "2"), ("98", "3")],
        [("101", "1"), ("102", "1")], []⟩
      ⟨⟨[F64.fin 98, F64.fin 99], 2⟩, ⟨[F64.fin 3, F64.fin 2], 2⟩,
       ⟨[F64.fin 101, F64.fin 102], 2⟩, ⟨[F64.fin 1, F64.fin 1], 2⟩⟩
      = .ok ⟨⟨[F64.fin 98, F64.fin 99, F64.fin 98, F64.fin 99], 4⟩,
              ⟨[F64.fin 3, F64.fin 2, F64.fin 3, F64.fin 2], 4⟩,
              ⟨[F64.fin 101, F64.fin 102, F64.fin 101, F64.fin 102], 4⟩,
              ⟨[F64.fin 1, F64.fin 1, F64.fin 1, F64.fin 1], 4⟩⟩ ∧
     ∃ levels rest bp bs ap az,
        [("98", "3"), ("99", "2"), ("100", "1")] = levels ++ rest ∧ rest.length ≤ 1 ∧
        ParsedPrices levels bp ∧ ParsedSizes levels bs ∧
        ParsedPrices [("101", "1"), ("102", "1")] ap ∧
        ParsedSizes [("101", "1"), ("102", "1")] az ∧
        [F64.fin 98, F64.fin 99, F64.fin 98, F64.fin 99] = [F64.fin 98, F64.fin 99] ++ bp ∧
        [F64.fin 3, F64.fin 2, F64.fin 3, F64.fin 2] = [F64.fin 3, F64.fin 2] ++ bs ∧
        [F64.fin 101, F64.fin 102, F64.fin 101, F64.fin 102]
          = [F64.fin 101, F64.fin 102] ++ ap ∧
        [F64.fin 1, F64.fin 1, F64.fin 1, F64.fin 1] = [F64.fin 1, F64.fin 1] ++ az ∧
        ("Bid prices not sorted." ∈ ["Bid prices not sorted.", "Ask prices not sorted."] ↔
          Float64sAreSorted ([F64.fin 98, F64.fin 99] ++ bp) = false) ∧
        ("Ask prices not sorted." ∈ ["Bid prices not sorted.", "Ask prices not sorted."] ↔
          Float64sAreSorted ([F64.fin 101, F64.fin 102] ++ ap) = false) ∧
        (∀ line ∈ ["Bid prices not sorted.", "Ask prices not sorted."],
          line = "Bid prices not sorted." ∨ line = "Ask prices not sorted.")) :=
  ⟨by decide,
   (C15_snapshot_merged_and_checked
      ⟨"snapshot", "BTC-USD", [("100", "1"), ("99", "2"), ("98", "3")],
        [("101", "1"), ("102", "1")], []⟩
      ⟨⟨[F64.fin 98, F64.fin 99], 2⟩, ⟨[F64.fin 3, F64.fin 2], 2⟩,
       ⟨[F64.fin 101, F64.fin 102], 2⟩, ⟨[F64.fin 1, F64.fin 1], 2⟩⟩
      rfl (by decide) (by decide) (by decide) (by decide)).2.2.2 _ _ (by decide)⟩

/-! ## Claims about the pairing of prices and sizes -/

theorem zip_split (l z : List F64) (i : Nat) (h : l.length = z.length) :
    List.zip l z = List.zip (l.take i) (z.take i) ++ List.zip (l.drop i) (z.drop i) := by
  rw [← List.zip_append (by simp [h])]
  simp

theorem zip_split_at (l z : List F64) (i : Nat) (h : l.length = z.length) (hi : i < l.length) :
    List.zip l z = List.zip (l.take i) (z.take i) ++
      (l[i], z[i]) :: List.zip (l.drop (i + 1)) (z.drop (i + 1)) := by
  rw [zip_split l z i h, List.drop_eq_getElem_cons hi,
    List.drop_eq_getElem_cons (by omega : i < z.length)]
  rfl

/-- Erasing index `i` from both lists removes the pair at `i` and no other. -/
theorem zip_eraseIdx_mem (l z : List F64) (i : Nat) (v : F64) (hl : l.length = z.length)
    (hv : l[i]? = some v) :
    (∀ pair ∈ List.zip l z, pair.1 ≠ v → pair ∈ List.zip (l.eraseIdx i) (z.eraseIdx i)) ∧
    (∀ pair ∈ List.zip (l.eraseIdx i) (z.eraseIdx i), pair ∈ List.zip l z) := by
  obtain ⟨hi, hiv⟩ := List.getElem?_eq_some_iff.mp hv
  have hnew : List.zip (l.eraseIdx i) (z.eraseIdx i) =
      List.zip (l.take i) (z.take i) ++ List.zip (l.drop (i + 1)) (z.drop (i + 1)) := by
    rw [List.eraseIdx_eq_take_drop_succ, List.eraseIdx_eq_take_drop_succ,
      List.zip_append (by simp [hl])]
  rw [hnew, zip_split_at l z i hl hi]
  constructor
  · intro pair hp hne
    rcases List.mem_append.mp hp with h | h
    · exact List.mem_append_left _ h
    · rcases List.mem_cons.mp h with h | h
      · exact absurd (by rw [h]; exact hiv) hne
      · exact List.mem_append_right _ h
  · intro pair hp
    rcases List.mem_append.mp hp with h | h
    · exact List.mem_append_left _ h
    · exact List.mem_append_right _ (List.mem_cons_of_mem _ h)

/-- Overwriting the size at index `i` changes the pair at `i` and no other. -/
theorem zip_set_mem (l z : List F64) (i : Nat) (v s : F64) (hl : l.length = z.length)
    (hv : l[i]? = some v) :
    (∀ pair ∈ List.zip l z, pair.1 ≠ v → pair ∈ List.zip l (z.set i s)) ∧
    (∀ pair ∈ List.zip l (z.set i s), pair ∈ List.zip l z ∨ pair = (v, s)) := by
  obtain ⟨hi, hiv⟩ := List.getElem?_eq_some_iff.mp hv
  have hnew : List.zip l (z.set i s) =
      List.zip (l.take i) (z.take i) ++ (l[i], s) :: List.zip (l.drop (i + 1)) (z.drop (i + 1)) := by
    rw [List.set_eq_take_cons_drop s (by omega : i < z.length)]
    conv_lhs => rw [← List.take_append_drop i l, List.drop_eq_getElem_cons hi]
    rw [List.zip_append (by simp [hl])]
    rfl
  rw [hnew, zip_split_at l z i hl hi]
  constructor
  · intro pair hp hne
    rcases List.mem_append.mp hp with h | h
    · exact List.mem_append_left _ h
    · rcases List.mem_cons.mp h with h | h
      · exact absurd (by rw [h]; exact hiv) hne
      · exact List.mem_append_right _ (List.mem_cons_of_mem _ h)
  · intro pair hp
    rcases List.mem_append.mp hp with h | h
    · exact Or.inl (List.mem_append_left _ h)
    · rcases List.mem_cons.mp h with h | h
      · right; rw [h, hiv]
      · exact Or.inl (List.mem_append_right _ (List.mem_cons_of_mem _ h))

/-- Inserting a level at index `i` of both lists adds the pair `(p, s)` and
keeps every other pair. -/
theorem zip_insert_mem (l z : List F64) (i : Nat) (p s : F64) (hl : l.length = z.length) :
    (∀ pair ∈ List.zip l z,
      pair ∈ List.zip (l.take i ++ p :: l.drop i) (z.take i ++ s :: z.drop i)) ∧
    (∀ pair ∈ List.zip (l.take i ++ p :: l.drop i) (z.take i ++ s :: z.drop i),
      pair ∈ List.zip l z ∨ pair = (p, s)) := by
  have hnew : List.zip (l.take i ++ p :: l.drop i) (z.take i ++ s :: z.drop i) =
      List.zip (l.take i) (z.take i) ++ (p, s) :: List.zip (l.drop i) (z.drop i) := by
    rw [List.zip_append (by simp [hl])]
    rfl
  rw [hnew]
  constructor
  · intro pair hp
    rw [zip_split l z i hl] at hp
    rcases List.mem_append.mp hp with h | h
    · exact List.mem_append_left _ h
    · exact List.mem_append_right _ (List.mem_cons_of_mem _ h)
  · intro pair hp
    rw [zip_split l z i hl]
    rcases List.mem_append.mp hp with h | h
    · exact Or.inl (List.mem_append_left _ h)
    · rcases List.mem_cons.mp h with h | h
      · exact Or.inr h
      · exact Or.inl (List.mem_append_right _ h)

/-- A completed call of `UpdateOb` keeps the two slices parallel, keeps every
pair `(price, size)` whose price is not the addressed one, and creates no pair
other than `(p, s)`. -/
theorem UpdateOb_pairing (price size : String) (ps ss : Slice) (p s : F64) (r : Side)
    (hps : ps.WF) (hss : ss.WF) (hlen : ps.len = ss.len)
    (hp : ParseFloat price = .ok p) (hs : ParseFloat size = .ok s)
    (hr : UpdateOb price size ps ss = .ok r) :
    r.1.len = r.2.len ∧ r.1.WF ∧ r.2.WF ∧
    (∀ pair ∈ List.zip ps.data ss.data, F64.eq pair.1 p = false →
      pair ∈ List.zip r.1.data r.2.data) ∧
    (∀ pair ∈ List.zip r.1.data r.2.data, pair ∈ List.zip ps.data ss.data ∨ pair = (p, s)) := by
  have hl : ps.data.length = ss.data.length := by
    rw [Slice.data_length ps hps, Slice.data_length ss hss, hlen]
  have insertCase : (∀ v, ps.data[SearchFloat64s ps.data p]? = some v → F64.eq v p = false) →
      r.1.len = r.2.len ∧ r.1.WF ∧ r.2.WF ∧
      (∀ pair ∈ List.zip ps.data ss.data, F64.eq pair.1 p = false →
        pair ∈ List.zip r.1.data r.2.data) ∧
      (∀ pair ∈ List.zip r.1.data r.2.data,
        pair ∈ List.zip ps.data ss.data ∨ pair = (p, s)) := by
    intro hnf
    by_cases hroom : SearchFloat64s ps.data p + 1 ≤ ps.cap ∧ SearchFloat64s ps.data p + 1 ≤ ss.cap
    · obtain ⟨r1, hr1, hd1, hd2, hw1, hw2, hlr⟩ :=
        UpdateOb_insert price size ps ss p s hps hss hlen hp hs hnf hroom.1 hroom.2
      rw [hr1] at hr
      injection hr with hr
      subst hr
      obtain ⟨k1, k2⟩ := zip_insert_mem ps.data ss.data (SearchFloat64s ps.data p) p s hl
      rw [hd1, hd2]
      exact ⟨hlr, hw1, hw2, fun pair hm _ => k1 pair hm, k2⟩
    · rw [UpdateOb_insert_panic price size ps ss p s hps hp hs hnf hroom] at hr
      exact absurd hr (by simp)
  cases hget : ps.data[SearchFloat64s ps.data p]? with
  | none => exact insertCase (fun v hv => by rw [hget] at hv; exact absurd hv (by simp))
  | some v =>
    cases hvp : F64.eq v p with
    | false =>
      exact insertCase (fun w hw => by
        rw [hget] at hw; injection hw with hw; subst hw; exact hvp)
    | true =>
      have hne : ∀ pair : F64 × F64, F64.eq pair.1 p = false → pair.1 ≠ v := by
        intro pair hf hEq
        rw [hEq, hvp] at hf
        exact absurd hf (by simp)
      have hvEq : v = p := (F64.eq_iff.mp hvp).1
      cases hz : F64.eq s F64.zero with
      | true =>
        obtain ⟨r1, hr1, hd1, hd2, hw1, hw2, hlr⟩ :=
          UpdateOb_delete price size ps ss p s v hps hss hlen hp hs hget hvp hz
        rw [hr1] at hr
        injection hr with hr
        subst hr
        obtain ⟨k1, k2⟩ := zip_eraseIdx_mem ps.data ss.data (SearchFloat64s ps.data p) v hl hget
        rw [hd1, hd2]
        exact ⟨hlr, hw1, hw2, fun pair hm hf => k1 pair hm (hne pair hf),
          fun pair hm => Or.inl (k2 pair hm)⟩
      | false =>
        obtain ⟨r1, hr1, he, hd2, hw2, hlr⟩ :=
          UpdateOb_replace price size ps ss p s v hps hss hlen hp hs hget hvp hz
        rw [hr1] at hr
        injection hr with hr
        subst hr
        obtain ⟨k1, k2⟩ := zip_set_mem ps.data ss.data (SearchFloat64s ps.data p) v s hl hget
        rw [hd2, he]
        refine ⟨by rw [← hlr, he], hps, hw2, fun pair hm hf => k1 pair hm (hne pair hf), ?_⟩
        intro pair hm
        rcases k2 pair hm with h | h
        · exact Or.inl h
        · right; rw [h, hvEq]

/-- C19: prices and sizes stay parallel.  A completed call of `UpdateOb` on
slices of the same length yields slices of the same length; every pair
`(price, size)` of the old side whose price is not (in Go's `==`) the price
addressed is a pair of the new side, and the new side pairs nothing that the
old side did not pair except the level `(p, s)` itself.  After
`HandleObSnapshotMsg` on the empty book the bid slices have the same length
and the ask slices have the same length. -/
theorem C19_prices_and_sizes_stay_parallel :
    (∀ (price size : String) (ps ss : Slice) (p s : F64) (r : Side),
      ps.WF → ss.WF → ps.len = ss.len →
      ParseFloat price = .ok p → ParseFloat size = .ok s →
      UpdateOb price size ps ss = .ok r →
        r.1.len = r.2.len ∧ r.1.data.length = r.2.data.length ∧
        (∀ pair ∈ List.zip ps.data ss.data, F64.eq pair.1 p = false →
          pair ∈ List.zip r.1.data r.2.data) ∧
        (∀ pair ∈ List.zip r.1.data r.2.data,
          pair ∈ List.zip ps.data ss.data ∨ pair = (p, s))) ∧
    (∀ (msg : coinbase.obMsg) (ob : OrderBook),
      coinbase.HandleObSnapshotMsg msg OrderBook.empty = .ok ob →
        ob.BidPrices.len = ob.BidSizes.len ∧ ob.AskPrices.len = ob.AskSizes.len ∧
        ob.BidPrices.data.length = ob.BidSizes.data.length ∧
        ob.AskPrices.data.length = ob.AskSizes.data.length) := by
  constructor
  · intro price size ps ss p s r hps hss hlen hp hs hr
    obtain ⟨h1, h2, h3, h4, h5⟩ := UpdateOb_pairing price size ps ss p s r hps hss hlen hp hs hr
    exact ⟨h1, by rw [Slice.data_length _ h2, Slice.data_length _ h3, h1], h4, h5⟩
  · intro msg ob h
    have hw : Slice.nil.WF := by decide
    have hi : msg.Bids.length - 1 < msg.Bids.length ∨ msg.Bids.length - 1 = 0 := by omega
    simp only [coinbase.HandleObSnapshotMsg, bind, Except.bind] at h
    cases hb : coinbase.snapshotBids msg.Bids (msg.Bids.length - 1) OrderBook.empty with
    | error e => rw [hb] at h; exact absurd h (by simp)
    | ok mid =>
      rw [hb] at h
      simp only [] at h
      obtain ⟨bp, bs, b1, b2, b3, b4, b5, b6, b7, b8, b9, b10⟩ :=
        coinbase_snapshotBids_spec msg.Bids _ OrderBook.empty mid hi hw hw hb
      obtain ⟨ap, az, a1, a2, a3, a4, a5, a6, a7, a8⟩ :=
        coinbase_snapshotAsks_spec msg.Asks mid ob (by rw [b5]; exact hw) (by rw [b6]; exact hw) h
      have e1 : ob.BidPrices.len = ob.BidSizes.len := by
        rw [a5, a6, b9, b10]; rfl
      have e2 : ob.AskPrices.len = ob.AskSizes.len := by
        rw [a7, a8, b5, b6]; rfl
      have l1 := List.Forall₂.length_eq b3
      have l2 := List.Forall₂.length_eq b4
      have l3 := List.Forall₂.length_eq a3
      have l4 := List.Forall₂.length_eq a4
      refine ⟨e1, e2, ?_, ?_⟩
      · rw [a5, a6, b1, b2, List.length_append, List.length_append, ← l1, ← l2]
        rfl
      · rw [a1, a2, b5, b6, List.length_append, List.length_append, ← l3, ← l4]
        rfl

/-- C19, an instance: replacing the size of 99 in `[(98,3),(99,2),(100,1)]`
keeps `(98,3)` and `(100,1)` paired. -/
theorem C19_prices_and_sizes_stay_parallel_witness :
    UpdateOb "99" "7" (Slice.ofList [F64.fin 98, F64.fin 99, F64.fin 100])
        (Slice.ofList [F64.fin 3, F64.fin 2, F64.fin 1])
      = .ok (Slice.ofList [F64.fin 98, F64.fin 99, F64.fin 100],
             Slice.ofList [F64.fin 3, F64.fin 7, F64.fin 1]) ∧
    (3 = 3 ∧ [F64.fin 98, F64.fin 99, F64.fin 100].length = [F64.fin 3, F64.fin 7, F64.fin 1].length ∧
      (∀ pair ∈ List.zip [F64.fin 98, F64.fin 99, F64.fin 100] [F64.fin 3, F64.fin 2, F64.fin 1],
        F64.eq pair.1 (F64.fin 99) = false →
        pair ∈ List.zip [F64.fin 98, F64.fin 99, F64.fin 100] [F64.fin 3, F64.fin 7, F64.fin 1]) ∧
      (∀ pair ∈ List.zip [F64.fin 98, F64.fin 99, F64.fin 100] [F64.fin 3, F64.fin 7, F64.fin 1],
        pair ∈ List.zip [F64.fin 98, F64.fin 99, F64.fin 100] [F64.fin 3, F64.fin 2, F64.fin 1] ∨
        pair = (F64.fin 99, F64.fin 7))) :=
  ⟨by decide,
   C19_prices_and_sizes_stay_parallel.1 "99" "7"
    (Slice.ofList [F64.fin 98, F64.fin 99, F64.fin 100])
    (Slice.ofList [F64.fin 3, F64.fin 2, F64.fin 1]) (F64.fin 99) (F64.fin 7)
    (Slice.ofList [F64.fin 98, F64.fin 99, F64.fin 100],
     Slice.ofList [F64.fin 3, F64.fin 7, F64.fin 1])
    (by decide) (by decide) (by decide) (by decide) (by decide) (by decide)⟩

/-! ## Claims about repeating an update -/

theorem set_same (arr : List F64) (i : Nat) (v : F64) (h : arr[i]? = some v) :
    arr.set i v = arr := by
  apply List.ext_getElem?
  intro k
  rw [List.getElem?_set]
  split
  · rename_i hk
    subst hk
    obtain ⟨hi, _⟩ := List.getElem?_eq_some_iff.mp h
    simp [hi, h]
  · rfl

/-- Branch "replace this price level size", with the slices it leaves. -/
theorem UpdateOb_replace_exact (price size : String) (ps ss : Slice) (p s v : F64)
    (hps : ps.WF) (hlen : ps.len = ss.len)
    (hp : ParseFloat price = .ok p) (hs : ParseFloat size = .ok s)
    (hv : ps.data[SearchFloat64s ps.data p]? = some v) (hvp : F64.eq v p = true)
    (hz : F64.eq s F64.zero = false) :
    UpdateOb price size ps ss = .ok
      (ps, ⟨ss.arr.set (SearchFloat64s ps.data p) s, ss.len⟩) := by
  have hidx : SearchFloat64s ps.data p < ps.len := by
    have := (List.getElem?_eq_some_iff.mp hv).1
    rwa [Slice.data_length ps hps] at this
  have hi := Slice.index_eq ps _ v hidx hv
  have hl2 : SearchFloat64s ps.data p < ss.len := by omega
  simp only [UpdateOb, hp, hs, bind, Except.bind, pure, Except.pure, hidx, if_true, hi, hvp, hz,
    Slice.set, hl2]
  simp

/-- Once the level `(p, s)` is stored at the index the search returns for `p`,
a further `UpdateOb(p, s)` with `s != 0` changes nothing. -/
theorem UpdateOb_again (price size : String) (ps ss : Slice) (p s : F64)
    (hps : ps.WF) (hss : ss.WF) (hlen : ps.len = ss.len)
    (hp : ParseFloat price = .ok p) (hs : ParseFloat size = .ok s)
    (hz : F64.eq s F64.zero = false) (hpn : p ≠ F64.nan)
    (hv : ps.data[SearchFloat64s ps.data p]? = some p)
    (hsz : ss.data[SearchFloat64s ps.data p]? = some s) :
    UpdateOb price size ps ss = .ok (ps, ss) := by
  have hvp : F64.eq p p = true := F64.eq_iff.mpr ⟨rfl, hpn⟩
  rw [UpdateOb_replace_exact price size ps ss p s p hps hlen hp hs hv hvp hz]
  have hidx : SearchFloat64s ps.data p < ss.len := by
    have := (List.getElem?_eq_some_iff.mp hsz).1
    rwa [Slice.data_length ss hss] at this
  have harr : ss.arr[SearchFloat64s ps.data p]? = some s := by
    have h1 : ss.data[SearchFloat64s ps.data p]? = ss.arr[SearchFloat64s ps.data p]? :=
      List.getElem?_take_of_lt hidx
    rw [← h1]; exact hsz
  rw [set_same _ _ _ harr]

/-- C20 as stated fails.  With size 0 the second call undoes or redoes the
first: on `[(98,3),(99,2)]` one call of `UpdateOb("97","0")` stores
`(97,0)` and the second call removes it again; one call of
`UpdateOb("99","0")` removes 99 and the second call stores `(99,0)`.  With the
price "NaN" every call appends one more level. -/
theorem C20_counterexample_not_idempotent :
    UpdateOb "97" "0" (Slice.ofList [F64.fin 98, F64.fin 99])
        (Slice.ofList [F64.fin 3, F64.fin 2])
      = .ok (⟨[F64.fin 97, F64.fin 98, F64.fin 99, F64.fin 0], 3⟩,
             ⟨[F64.fin 0, F64.fin 3, F64.fin 2, F64.fin 0], 3⟩) ∧
    UpdateOb "97" "0" ⟨[F64.fin 97, F64.fin 98, F64.fin 99, F64.fin 0], 3⟩
        ⟨[F64.fin 0, F64.fin 3, F64.fin 2, F64.fin 0], 3⟩
      = .ok (⟨[F64.fin 98, F64.fin 99, F64.fin 99, F64.fin 0], 2⟩,
             ⟨[F64.fin 3, F64.fin 2, F64.fin 2, F64.fin 0], 2⟩) ∧
    Slice.data ⟨[F64.fin 97, F64.fin 98, F64.fin 99, F64.fin 0], 3⟩
      ≠ Slice.data ⟨[F64.fin 98, F64.fin 99, F64.fin 99, F64.fin 0], 2⟩ ∧
    UpdateOb "99" "0" (Slice.ofList [F64.fin 98, F64.fin 99])
        (Slice.ofList [F64.fin 3, F64.fin 2])
      = .ok (⟨[F64.fin 98, F64.fin 99], 1⟩, ⟨[F64.fin 3, F64.fin 2], 1⟩) ∧
    UpdateOb "99" "0" ⟨[F64.fin 98, F64.fin 99], 1⟩ ⟨[F64.fin 3, F64.fin 2], 1⟩
      = .ok (⟨[F64.fin 98, F64.fin 99], 2⟩, ⟨[F64.fin 3, F64.fin 0], 2⟩) ∧
    Slice.data ⟨[F64.fin 3, F64.fin 2], 1⟩ ≠ Slice.data ⟨[F64.fin 3, F64.fin 0], 2⟩ ∧
    UpdateOb "NaN" "1" ⟨[F64.fin 98, F64.fin 0, F64.fin 0], 1⟩
        ⟨[F64.fin 3, F64.fin 0, F64.fin 0], 1⟩
      = .ok (⟨[F64.fin 98, F64.nan, F64.fin 0], 2⟩, ⟨[F64.fin 3, F64.fin 1, F64.fin 0], 2⟩) ∧
    UpdateOb "NaN" "1" ⟨[F64.fin 98, F64.nan, F64.fin 0], 2⟩ ⟨[F64.fin 3, F64.fin 1, F64.fin 0], 2⟩
      = .ok (⟨[F64.fin 98, F64.nan, F64.nan], 3⟩, ⟨[F64.fin 3, F64.fin 1, F64.fin 1], 3⟩) ∧
    Slice.data ⟨[F64.fin 98, F64.nan, F64.fin 0], 2⟩
      ≠ Slice.data ⟨[F64.fin 98, F64.nan, F64.nan], 3⟩ := by
  refine ⟨by decide, by decide, by decide, by decide, by decide, by decide, by decide,
    by decide, by decide⟩

/-- C20 (amended): `UpdateOb` is idempotent for a size other than 0 and a
price other than NaN.  On a strictly ascending NaN-free side, applying
`UpdateOb(p, s)` twice in a row has the same outcome as applying it once: the
same two slices when the first call returns, the same failure when it does not. -/
theorem C20_UpdateOb_idempotent_nonzero_size (price size : String) (ps ss : Slice) (p s : F64)
    (hps : ps.WF) (hss : ss.WF) (hlen : ps.len = ss.len)
    (hsorted : StrictAsc ps.data) (hnn : NoNaN ps.data)
    (hp : ParseFloat price = .ok p) (hpn : p ≠ F64.nan)
    (hs : ParseFloat size = .ok s) (hz : F64.eq s F64.zero = false) :
    (UpdateOb price size ps ss >>= fun r => UpdateOb price size r.1 r.2)
      = UpdateOb price size ps ss := by
  cases hr : UpdateOb price size ps ss with
  | error e => rfl
  | ok r =>
    show UpdateOb price size r.1 r.2 = .ok r
    obtain ⟨hsr, hnr, hw1, hw2, hlr⟩ :=
      UpdateOb_sorted_step price size ps ss p hps hss hlen hsorted hnn hp hpn r hr
    have hvp : F64.eq p p = true := F64.eq_iff.mpr ⟨rfl, hpn⟩
    have insertCase : (∀ v, ps.data[SearchFloat64s ps.data p]? = some v → F64.eq v p = false) →
        UpdateOb price size r.1 r.2 = .ok r := by
      intro hnf
      by_cases hroom : SearchFloat64s ps.data p + 1 ≤ ps.cap ∧
          SearchFloat64s ps.data p + 1 ≤ ss.cap
      · obtain ⟨r1, hr1, hd1, hd2, _⟩ :=
          UpdateOb_insert price size ps ss p s hps hss hlen hp hs hnf hroom.1 hroom.2
        rw [hr1] at hr
        injection hr with hr
        subst hr
        have hle : SearchFloat64s ps.data p ≤ ps.data.length := SearchFloat64s_le _ _
        have hle2 : SearchFloat64s ps.data p ≤ ss.data.length := by
          rw [Slice.data_length ss hss, ← hlen, ← Slice.data_length ps hps]; exact hle
        have g1 : r1.1.data[SearchFloat64s ps.data p]? = some p := by
          rw [hd1, List.getElem?_append_right (by simp)]
          simp [hle]
        have g2 : r1.2.data[SearchFloat64s ps.data p]? = some s := by
          rw [hd2, List.getElem?_append_right (by simp)]
          simp [hle2]
        have hsame := SearchFloat64s_eq_of_mem r1.1.data p p _ hsr g1 hvp
        rw [← hsame] at g1 g2
        rw [UpdateOb_again price size r1.1 r1.2 p s hw1 hw2 hlr hp hs hz hpn g1 g2]
      · rw [UpdateOb_insert_panic price size ps ss p s hps hp hs hnf hroom] at hr
        exact absurd hr (by simp)
    cases hget : ps.data[SearchFloat64s ps.data p]? with
    | none => exact insertCase (fun v hv => by rw [hget] at hv; exact absurd hv (by simp))
    | some v =>
      cases hvq : F64.eq v p with
      | false =>
        exact insertCase (fun w hw => by
          rw [hget] at hw; injection hw with hw; subst hw; exact hvq)
      | true =>
        have hex := UpdateOb_replace_exact price size ps ss p s v hps hlen hp hs hget hvq hz
        rw [hex] at hr
        injection hr with hr
        subst hr
        show UpdateOb price size ps
          (⟨ss.arr.set (SearchFloat64s ps.data p) s, ss.len⟩ : Slice) = _
        rw [UpdateOb_replace_exact price size ps
          (⟨ss.arr.set (SearchFloat64s ps.data p) s, ss.len⟩ : Slice) p s v hps hlen hp hs
          hget hvq hz]
        simp only [List.set_set]

/-- C20, an instance: inserting `(97,5)` twice into `[(98,3),(99,2)]`. -/
theorem C20_UpdateOb_idempotent_nonzero_size_witness :
    UpdateOb "97" "5" (Slice.ofList [F64.fin 98, F64.fin 99])
        (Slice.ofList [F64.fin 3, F64.fin 2])
      = .ok (⟨[F64.fin 97, F64.fin 98, F64.fin 99, F64.fin 0], 3⟩,
             ⟨[F64.fin 5, F64.fin 3, F64.fin 2, F64.fin 0], 3⟩) ∧
    (UpdateOb "97" "5" (Slice.ofList [F64.fin 98, F64.fin 99])
        (Slice.ofList [F64.fin 3, F64.fin 2]) >>= fun r => UpdateOb "97" "5" r.1 r.2)
      = UpdateOb "97" "5" (Slice.ofList [F64.fin 98, F64.fin 99])
          (Slice.ofList [F64.fin 3, F64.fin 2]) :=
  ⟨by decide,
   C20_UpdateOb_idempotent_nonzero_size "97" "5" (Slice.ofList [F64.fin 98, F64.fin 99])
    (Slice.ofList [F64.fin 3, F64.fin 2]) (F64.fin 97) (F64.fin 5)
    (by decide) (by decide) (by decide) (by decide) (by decide) (by decide) (by decide)
    (by decide) (by decide)⟩

end CryptoFetch
